import Mathlib

/-!
# encfs: radix conversion and the Base32 block name codec

A shallow embedding of `encfs/base64.cpp` (the power-of-two radix converter and the alphabet
tables) and of `encfs/B32BlockNameIO.cpp` (padding, MAC, IV chaining, block encryption and
printable encoding of one file name), followed by the properties proved about them.

Conventions of the embedding:

* `unsigned long work` of the converter is a natural number, without wrap-around: the bound
  `work < 2 ^ (workBits + 8)` is kept by every read of a byte and by every emitted symbol
  (`work_read_lt`, `work_emit_lt`), and a byte is read only while `workBits < dst2Pow`;
* an `unsigned char *` is a `Buffer`: a map from byte index to byte value.  The C code leaves the
  size of every buffer to its caller, so the model does not bound a buffer either;
* a byte is a natural number below 256; every store into an `unsigned char` is written `% 256`;
* `int` counters that can become negative in the source (`workBits` of the in-place converter,
  `decodedStreamLen`, `finalSize`) are integers, all others are natural numbers;
* a `throw ERROR(msg)` is an `Except.error msg`; the chained IV, which the C code updates through
  a pointer, is returned next to the result.
-/

namespace Encfs

/-! ## Buffers -/

/-- The memory behind an `unsigned char *`: byte index to byte value. -/
abbrev Buffer := Nat → Nat

namespace Buffer

/-- Store one byte: `buf[i] = v`. -/
def set (buf : Buffer) (i v : Nat) : Buffer := fun j => if j = i then v else buf j

/-- The `n` bytes `buf[off], ..., buf[off + n - 1]`. -/
def slice (buf : Buffer) (off n : Nat) : List Nat := (List.range n).map fun i => buf (off + i)

/-- Store the bytes `xs` at `buf + off` (a `memcpy`). -/
def write (buf : Buffer) (off : Nat) (xs : List Nat) : Buffer :=
  fun j => if off ≤ j ∧ j < off + xs.length then xs.getD (j - off) 0 else buf j

/-- Store `n` copies of `v` at `buf + off` (a `memset`). -/
def fill (buf : Buffer) (off v n : Nat) : Buffer :=
  fun j => if off ≤ j ∧ j < off + n then v else buf j

/-- A buffer holding the bytes `xs` (and zero behind them). -/
def ofList (xs : List Nat) : Buffer := fun j => xs.getD j 0

/-- The loop `for (i = 0; i < n; ++i) buf[pos + i] = f(buf[pos + i])`. -/
def mapInPlace (f : Nat → Nat) (buf : Buffer) (pos : Nat) : Nat → Buffer
  | 0 => buf
  | n + 1 => mapInPlace f (buf.set pos (f (buf pos))) (pos + 1) n

/-- The loop `while (length--) *out++ = f(*in++)` for an input that does not overlap the
output: `inp` lists the `length` bytes read. -/
def translate (f : Nat → Nat) (out : Buffer) (pos : Nat) : List Nat → Buffer
  | [] => out
  | c :: inp => translate f (out.set pos (f c)) (pos + 1) inp

end Buffer

/-! ## `base64.cpp`: the radix converter -/

/-- The inner loop of `changeBase2`: `while (workBits >= dst2Pow) { *dst++ = work & mask; ... }`.
`out` lists the bytes stored through `dst` so far.  `workBits` never becomes negative here, it is
only decremented under `workBits >= dst2Pow`.  With `dst2Pow = 0`, outside the contract of the
converter, the C loop does not end; the model stops there. -/
def changeBase2.drain (dst2Pow : Nat) (work workBits : Nat) (out : List Nat) :
    Nat × Nat × List Nat :=
  if _h : dst2Pow ≤ workBits ∧ 0 < dst2Pow then
    drain dst2Pow (work >>> dst2Pow) (workBits - dst2Pow)
      (out ++ [(work &&& ((1 <<< dst2Pow) - 1)) % 256])
  else (work, workBits, out)
termination_by workBits
decreasing_by omega

/-- The outer loop of `changeBase2`: `while (src != end) { work |= (*src++) << workBits; ... }`. -/
def changeBase2.loop (src2Pow dst2Pow : Nat) :
    List Nat → Nat → Nat → List Nat → Nat × Nat × List Nat
  | [], work, workBits, out => (work, workBits, out)
  | b :: src, work, workBits, out =>
    match drain dst2Pow (work ||| (b <<< workBits)) (workBits + src2Pow) out with
    | (work, workBits, out) => loop src2Pow dst2Pow src work workBits out

/-- The function `changeBase2(src, srcLen, src2Pow, dst, dstLen, dst2Pow)` of the source: `src`
lists the `srcLen` input bytes, the result lists the bytes stored at `dst[0]`, `dst[1]`, ... -/
def changeBase2 (src : List Nat) (src2Pow : Nat) (dstLen : Nat) (dst2Pow : Nat) : List Nat :=
  match changeBase2.loop src2Pow dst2Pow src 0 0 [] with
  | (work, workBits, out) =>
    if workBits ≠ 0 ∧ out.length < dstLen then
      out ++ [(work &&& ((1 <<< dst2Pow) - 1)) % 256]
    else out

/-- The reading loop of the recursive `changeBase2Inline`:
`while (srcLen && workBits < dst2Pow) { work |= (*src++) << workBits; workBits += src2Pow; --srcLen; }`.
Returns the new `(src, srcLen, work, workBits)`. -/
def changeBase2Inline.read (buf : Buffer) (src2Pow dst2Pow : Nat) :
    Nat → Nat → Nat → Int → Nat × Nat × Nat × Int
  | 0, src, work, workBits => (src, 0, work, workBits)
  | srcLen + 1, src, work, workBits =>
    if workBits < dst2Pow then
      read buf src2Pow dst2Pow srcLen (src + 1) (work ||| (buf src <<< workBits.toNat))
        (workBits + src2Pow)
    else (src, srcLen + 1, work, workBits)

/-- The last loop of the recursive `changeBase2Inline`:
`while (workBits > 0) { *outLoc++ = work & mask; work >>= dst2Pow; workBits -= dst2Pow; }`.
With `dst2Pow = 0`, outside the contract, the C loop does not end; the model stops there. -/
def changeBase2Inline.flush (dst2Pow : Nat) (buf : Buffer) (outLoc work : Nat) (workBits : Int) :
    Buffer :=
  if _h : 0 < workBits ∧ 0 < dst2Pow then
    flush dst2Pow (buf.set outLoc ((work &&& ((1 <<< dst2Pow) - 1)) % 256)) (outLoc + 1)
      (work >>> dst2Pow) (workBits - dst2Pow)
  else buf
termination_by workBits.toNat
decreasing_by omega

/-- The static, recursive overload of `changeBase2Inline`.  `src` and `outLoc` are positions in
`buf`; a null `outLoc` is `none`.  The recursive call runs on the memory as this call found it
(nothing is stored before it), and `*outLoc = outVal` is stored into the memory it returns.  With
`dst2Pow = 0`, outside the contract, the C recursion does not end; the model takes the other
branch there. -/
def changeBase2InlineAux (buf : Buffer) (src srcLen src2Pow dst2Pow : Nat)
    (outputPartialLastByte : Bool) (work : Nat) (workBits : Int) (outLoc : Option Nat) : Buffer :=
  match h : changeBase2Inline.read buf src2Pow dst2Pow srcLen src work workBits with
  | (src1, srcLen1, work1, workBits1) =>
    if hs : srcLen1 ≠ 0 ∧ 0 < dst2Pow then
      (changeBase2InlineAux buf src1 srcLen1 src2Pow dst2Pow outputPartialLastByte
        (work1 >>> dst2Pow) (workBits1 - dst2Pow) (some (outLoc.getD src + 1))).set
        (outLoc.getD src) ((work1 &&& ((1 <<< dst2Pow) - 1)) % 256)
    else if outputPartialLastByte then
      changeBase2Inline.flush dst2Pow
        (buf.set (outLoc.getD src) ((work1 &&& ((1 <<< dst2Pow) - 1)) % 256))
        (outLoc.getD src + 1) (work1 >>> dst2Pow) (workBits1 - dst2Pow)
    else buf.set (outLoc.getD src) ((work1 &&& ((1 <<< dst2Pow) - 1)) % 256)
termination_by (srcLen * src2Pow + workBits).toNat
decreasing_by
  have key : ∀ (n p w : Nat) (b : Int) (r : Nat × Nat × Nat × Int),
      changeBase2Inline.read buf src2Pow dst2Pow n p w b = r →
        (r.2.1 : Int) * src2Pow + r.2.2.2 = n * src2Pow + b ∧
          (r.2.1 ≠ 0 → (dst2Pow : Int) ≤ r.2.2.2) := by
    intro n
    induction n with
    | zero => intro p w b r hr; subst hr; simp [changeBase2Inline.read]
    | succ n ih =>
      intro p w b r hr
      rw [changeBase2Inline.read] at hr
      split at hr
      · obtain ⟨h1, h2⟩ := ih _ _ _ _ hr
        refine ⟨?_, h2⟩
        rw [h1]; push_cast; ring
      · subst hr
        refine ⟨rfl, fun _ => ?_⟩
        simp only; omega
  obtain ⟨h1, h2⟩ := key _ _ _ _ _ h
  have h3 := h2 hs.1
  have h4 : (0 : Int) ≤ (srcLen1 : Int) * src2Pow := by positivity
  simp only at h1 h3
  omega

/-- The public `changeBase2Inline(src, srcLen, src2Pow, dst2Pow, outputPartialLastByte)`: the
buffer starts at `src`, which is position 0 of `buf`. -/
def changeBase2Inline (buf : Buffer) (srcLen src2Pow dst2Pow : Nat)
    (outputPartialLastByte : Bool) : Buffer :=
  changeBase2InlineAux buf 0 srcLen src2Pow dst2Pow outputPartialLastByte 0 0 none

/-! ## `base64.cpp`: the alphabet tables -/

/-- The array `B642AsciiTable` with its terminating NUL. -/
def B642AsciiTable : List Nat := ",-0123456789".toList.map Char.toNat ++ [0]

/-- The body of the loop of `B64ToAscii` for one byte `in[offset]`; the result is stored in an
`unsigned char`. -/
def B64ToAscii.conv (ch : Nat) : Nat :=
  (if ch > 11 then
    if ch > 37 then ch + ('a'.toNat - 38) else ch + ('A'.toNat - 12)
  else B642AsciiTable.getD ch 0) % 256

/-- The function `B64ToAscii(in, length)` of the source. -/
def B64ToAscii (inp : Buffer) (length : Nat) : Buffer :=
  Buffer.mapInPlace B64ToAscii.conv inp 0 length

/-- The array `Ascii2B64Table` with its terminating NUL. -/
def Ascii2B64Table : List Nat :=
  "                                            01  23456789:;       ".toList.map Char.toNat ++ [0]

/-- The body of the loop of `AsciiToB64` for one byte; `ch` is an `unsigned char`, so the
additions are taken modulo 256. -/
def AsciiToB64.conv (ch : Nat) : Nat :=
  if ch ≥ 'A'.toNat then
    if ch ≥ 'a'.toNat then (ch + 256 + 38 - 'a'.toNat) % 256
    else (ch + 256 + 12 - 'A'.toNat) % 256
  else (Ascii2B64Table.getD ch 0 + 256 - '0'.toNat) % 256

/-- The function `AsciiToB64(out, in, length)` of the source, for an input that does not
overlap the output. -/
def AsciiToB64 (out : Buffer) (inp : List Nat) : Buffer :=
  Buffer.translate AsciiToB64.conv out 0 inp

/-- The function `AsciiToB64(in, length)` of the source: `AsciiToB64(in, in, length)`, where each
byte is read just before it is overwritten. -/
def AsciiToB64InPlace (inp : Buffer) (length : Nat) : Buffer :=
  Buffer.mapInPlace AsciiToB64.conv inp 0 length

/-- The array `ascii_to_binary_base32_table`. -/
def ascii_to_binary_base32_table : List Nat := [
    0, 0, 0, 0, 0, 0, 0, 0,
    0, 0, 0, 0, 0, 0, 0, 0,
    0, 0, 0, 0, 0, 0, 0, 0,
    0, 0, 0, 0, 0, 0, 0, 0,
    0, 0, 0, 0, 0, 0, 0, 0,
    0, 0, 0, 0, 0, 0, 0, 0,
    0, 0, 26, 27, 28, 29, 30, 31,
    0, 0, 0, 0, 0, 0, 0, 0,
    0, 0, 1, 2, 3, 4, 5, 6,
    7, 8, 9, 10, 11, 12, 13, 14,
    15, 16, 17, 18, 19, 20, 21, 22,
    23, 24, 25, 0, 0, 0, 0, 0,
    0, 0, 1, 2, 3, 4, 5, 6,
    7, 8, 9, 10, 11, 12, 13, 14,
    15, 16, 17, 18, 19, 20, 21, 22,
    23, 24, 25, 0, 0, 0, 0, 0,
    0, 0, 0, 0, 0, 0, 0, 0,
    0, 0, 0, 0, 0, 0, 0, 0,
    0, 0, 0, 0, 0, 0, 0, 0,
    0, 0, 0, 0, 0, 0, 0, 0,
    0, 0, 0, 0, 0, 0, 0, 0,
    0, 0, 0, 0, 0, 0, 0, 0,
    0, 0, 0, 0, 0, 0, 0, 0,
    0, 0, 0, 0, 0, 0, 0, 0,
    0, 0, 0, 0, 0, 0, 0, 0,
    0, 0, 0, 0, 0, 0, 0, 0,
    0, 0, 0, 0, 0, 0, 0, 0,
    0, 0, 0, 0, 0, 0, 0, 0,
    0, 0, 0, 0, 0, 0, 0, 0,
    0, 0, 0, 0, 0, 0, 0, 0,
    0, 0, 0, 0, 0, 0, 0, 0,
    0, 0, 0, 0, 0, 0, 0, 0]

/-- The array `binary_to_ascii_base32_table`. -/
def binary_to_ascii_base32_table : List Nat := [
    'a', 'b', 'c', 'd', 'e', 'f', 'g', 'h',
    'i', 'j', 'k', 'l', 'm', 'n', 'o', 'p',
    'q', 'r', 's', 't', 'u', 'v', 'w', 'x',
    'y', 'z', '2', '3', '4', '5', '6', '7',
    'a', 'b', 'c', 'd', 'e', 'f', 'g', 'h',
    'i', 'j', 'k', 'l', 'm', 'n', 'o', 'p',
    'q', 'r', 's', 't', 'u', 'v', 'w', 'x',
    'y', 'z', '2', '3', '4', '5', '6', '7',
    'a', 'b', 'c', 'd', 'e', 'f', 'g', 'h',
    'i', 'j', 'k', 'l', 'm', 'n', 'o', 'p',
    'q', 'r', 's', 't', 'u', 'v', 'w', 'x',
    'y', 'z', '2', '3', '4', '5', '6', '7',
    'a', 'b', 'c', 'd', 'e', 'f', 'g', 'h',
    'i', 'j', 'k', 'l', 'm', 'n', 'o', 'p',
    'q', 'r', 's', 't', 'u', 'v', 'w', 'x',
    'y', 'z', '2', '3', '4', '5', '6', '7',
    'a', 'b', 'c', 'd', 'e', 'f', 'g', 'h',
    'i', 'j', 'k', 'l', 'm', 'n', 'o', 'p',
    'q', 'r', 's', 't', 'u', 'v', 'w', 'x',
    'y', 'z', '2', '3', '4', '5', '6', '7',
    'a', 'b', 'c', 'd', 'e', 'f', 'g', 'h',
    'i', 'j', 'k', 'l', 'm', 'n', 'o', 'p',
    'q', 'r', 's', 't', 'u', 'v', 'w', 'x',
    'y', 'z', '2', '3', '4', '5', '6', '7',
    'a', 'b', 'c', 'd', 'e', 'f', 'g', 'h',
    'i', 'j', 'k', 'l', 'm', 'n', 'o', 'p',
    'q', 'r', 's', 't', 'u', 'v', 'w', 'x',
    'y', 'z', '2', '3', '4', '5', '6', '7',
    'a', 'b', 'c', 'd', 'e', 'f', 'g', 'h',
    'i', 'j', 'k', 'l', 'm', 'n', 'o', 'p',
    'q', 'r', 's', 't', 'u', 'v', 'w', 'x',
    'y', 'z', '2', '3', '4', '5', '6', '7'].map Char.toNat

/-- The function `B32ToAscii(in, length)` of the source. -/
def B32ToAscii (inp : Buffer) (length : Nat) : Buffer :=
  Buffer.mapInPlace (fun b => binary_to_ascii_base32_table.getD b 0) inp 0 length

/-- The function `AsciiToB32(out, in, length)` of the source, for an input that does not
overlap the output. -/
def AsciiToB32 (out : Buffer) (inp : List Nat) : Buffer :=
  Buffer.translate (fun c => ascii_to_binary_base32_table.getD c 0) out 0 inp

/-- The function `AsciiToB32(in, length)` of the source: `AsciiToB32(in, in, length)`, where each
byte is read just before it is overwritten. -/
def AsciiToB32InPlace (inp : Buffer) (length : Nat) : Buffer :=
  Buffer.mapInPlace (fun c => ascii_to_binary_base32_table.getD c 0) inp 0 length

/-- Modelled from the spec: `B256ToB32Bytes` of `base64.h`, which is not among the sources; the
length of `n` bytes in radix 32, `ceil(8n/5)`. -/
def B256ToB32Bytes (numB256Bytes : Nat) : Nat := (numB256Bytes * 8 + 4) / 5

/-- Modelled from the spec: `B32ToB256Bytes` of `base64.h`, which is not among the sources; the
number of whole bytes in `n` radix-32 symbols, `floor(5n/8)`. -/
def B32ToB256Bytes (numB32Bytes : Nat) : Nat := (numB32Bytes * 5) / 8

/-! ## `B32BlockNameIO.cpp`: the name codec -/

/-- Modelled from the spec: the external cipher (`Cipher.h` is not among the sources), as the
three operations the codec calls.  `MAC_16 bytes key iv` returns the 16-bit MAC and the chained
IV as the call leaves it (`iv` is `none` for a null pointer).  `blockEncode` and `blockDecode`
work in place on `len` bytes of `unsigned char` storage, which the two length fields and the two
byte fields record. -/
structure Cipher (Key : Type) where
  /-- The keyed 16-bit MAC, with the chained IV read and updated through `iv`. -/
  MAC_16 : List Nat → Key → Option Nat → Nat × Option Nat
  /-- Block encryption of a buffer under an IV seed. -/
  blockEncode : List Nat → Nat → Key → List Nat
  /-- Block decryption of a buffer under an IV seed. -/
  blockDecode : List Nat → Nat → Key → List Nat
  /-- Encryption keeps the length of the buffer. -/
  blockEncode_length : ∀ buf seed key, (blockEncode buf seed key).length = buf.length
  /-- Decryption keeps the length of the buffer. -/
  blockDecode_length : ∀ buf seed key, (blockDecode buf seed key).length = buf.length
  /-- Encryption leaves bytes in the buffer. -/
  blockEncode_bytes : ∀ buf seed key, ∀ b ∈ blockEncode buf seed key, b < 256
  /-- Decryption leaves bytes in the buffer. -/
  blockDecode_bytes : ∀ buf seed key, ∀ b ∈ blockDecode buf seed key, b < 256

/-- The data members of a `B32BlockNameIO`: `_interface` is `iface.current()`. -/
structure B32BlockNameIO (Key : Type) where
  /-- The major interface version in use. -/
  _interface : Nat
  /-- The block size in bytes. -/
  _bs : Nat
  /-- The cipher. -/
  _cipher : Cipher Key
  /-- The cipher key. -/
  _key : Key

namespace B32BlockNameIO

variable {Key : Type}

/-- The constructor of the source, with its `rAssert( blockSize < 128 )`, which throws. -/
def create (iface : Nat) (cipher : Cipher Key) (key : Key) (blockSize : Nat) :
    Except String ( B32BlockNameIO Key) :=
  if blockSize < 128 then .ok ⟨iface, blockSize, cipher, key⟩
  else .error "Assert failed: blockSize < 128"

/-- The method `maxEncodedNameLen` of the source. -/
def maxEncodedNameLen (io : B32BlockNameIO Key) (plaintextNameLen : Nat) : Nat :=
  let numBlocks := (plaintextNameLen + io._bs) / io._bs
  let encodedNameLen := numBlocks * io._bs + 2
  B256ToB32Bytes encodedNameLen

/-- The method `maxDecodedNameLen` of the source. -/
def maxDecodedNameLen (_io : B32BlockNameIO Key) (encodedNameLen : Nat) : Int :=
  let decLen256 : Int := B32ToB256Bytes encodedNameLen
  decLen256 - 2

/-- The local `padding` of `encodeName`: `_bs - length % _bs`, and `_bs` if that is 0.  (A
block size of 0 divides by zero in C; the properties below are stated for `_bs >= 1`.) -/
def padding (io : B32BlockNameIO Key) (length : Nat) : Nat :=
  if io._bs - length % io._bs = 0 then io._bs else io._bs - length % io._bs

/-- The local `tmpIV` of `encodeName` and `decodeName`:
`tmpIV = 0; if (iv && _interface >= 3) tmpIV = *iv;`. -/
def tmpIV (io : B32BlockNameIO Key) (iv : Option Nat) : Nat :=
  match iv with
  | some v => if io._interface ≥ 3 then v else 0
  | none => 0

/-- The buffer of `encodeName` after
`memcpy( encodedName+2, plaintextName, length )` and
`memset( encodedName+length+2, (unsigned char)padding, padding )`. -/
def padded (io : B32BlockNameIO Key) (plaintextName : List Nat) (encodedName : Buffer) : Buffer :=
  (encodedName.write 2 plaintextName).fill (plaintextName.length + 2)
    (io.padding plaintextName.length % 256) (io.padding plaintextName.length)

/-- The buffer of `encodeName` after the MAC, the two checksum bytes and `blockEncode`, just
before the radix conversion, together with the chained IV as `MAC_16` leaves it. -/
def preimage (io : B32BlockNameIO Key) (plaintextName : List Nat) (iv : Option Nat)
    (encodedName : Buffer) : Buffer × Option Nat :=
  let length := plaintextName.length
  let padding := io.padding length
  let buf := io.padded plaintextName encodedName
  let tmpIV := io.tmpIV iv
  match io._cipher.MAC_16 (buf.slice 2 (length + padding)) io._key iv with
  | (mac, iv1) =>
    let buf := (buf.set 0 ((mac >>> 8) &&& 0xff)).set 1 (mac &&& 0xff)
    let buf := buf.write 2
      (io._cipher.blockEncode (buf.slice 2 (length + padding)) (mac ^^^ tmpIV) io._key)
    (buf, iv1)

/-- The method `encodeName` of the source.  `plaintextName` lists the `length` bytes of the
name, `encodedName` is the output buffer of the caller.  Returns the encoded length, the output
buffer and the chained IV. -/
def encodeName (io : B32BlockNameIO Key) (plaintextName : List Nat) (iv : Option Nat)
    (encodedName : Buffer) : Nat × Buffer × Option Nat :=
  let length := plaintextName.length
  let padding := io.padding length
  match io.preimage plaintextName iv encodedName with
  | (buf, iv1) =>
    let encodedStreamLen := length + 2 + padding
    let encLen32 := B256ToB32Bytes encodedStreamLen
    let buf := changeBase2Inline buf encodedStreamLen 8 5 true
    let buf := B32ToAscii buf encLen32
    (encLen32, buf, iv1)

/-- The method `decodeName` of the source.  `encodedName` lists the `length` bytes of the
encoded name.  Returns the plaintext bytes with their number, or the error thrown, and in both
cases the chained IV as the call leaves it.  `tmpBuf` is the scratch buffer of `BUFFER_INIT`,
zeroed. -/
def decodeName (io : B32BlockNameIO Key) (encodedName : List Nat) (iv : Option Nat) :
    Except String (List Nat × Int) × Option Nat :=
  let length := encodedName.length
  let decLen256 : Int := B32ToB256Bytes length
  let decodedStreamLen : Int := decLen256 - 2
  if decodedStreamLen < io._bs then
    (.error "Filename too small to decode", iv)
  else
    let tmpBuf : Buffer := fun _ => 0
    let tmpBuf := AsciiToB32 tmpBuf encodedName
    let tmpBuf := changeBase2Inline tmpBuf length 5 8 false
    let mac := ((tmpBuf 0 % 256) <<< 8) ||| (tmpBuf 1 % 256)
    let tmpIV := io.tmpIV iv
    let tmpBuf := tmpBuf.write 2
      (io._cipher.blockDecode (tmpBuf.slice 2 decodedStreamLen.toNat) (mac ^^^ tmpIV) io._key)
    let padding : Int := tmpBuf ((2 + decodedStreamLen - 1).toNat) % 256
    let finalSize : Int := decodedStreamLen - padding
    if padding > io._bs ∨ finalSize < 0 then
      (.error "invalid padding size", iv)
    else
      let plaintextName := tmpBuf.slice 2 finalSize.toNat
      match io._cipher.MAC_16 (tmpBuf.slice 2 decodedStreamLen.toNat) io._key iv with
      | (mac2, iv1) =>
        if mac2 ≠ mac then (.error "checksum mismatch in filename decode", iv1)
        else (.ok (plaintextName, finalSize), iv1)

end B32BlockNameIO

/-! ## The bit stream behind the converter -/

/-- The output of the converter from a state `(work, workBits)` with the input `src` still to
read, as one recursion: emit a symbol while `workBits >= dst2Pow`, else read the next input byte,
and at the end of the input emit the left-over bits as one last symbol.  This is the list both
`changeBase2` and `changeBase2Inline` are compared with. -/
def bitGroups (src2Pow dst2Pow : Nat) (src : List Nat) (work workBits : Nat) : List Nat :=
  if _h : dst2Pow ≤ workBits ∧ 0 < dst2Pow then
    ((work &&& ((1 <<< dst2Pow) - 1)) % 256) ::
      bitGroups src2Pow dst2Pow src (work >>> dst2Pow) (workBits - dst2Pow)
  else
    match src with
    | [] => if workBits ≠ 0 then [(work &&& ((1 <<< dst2Pow) - 1)) % 256] else []
    | b :: src => bitGroups src2Pow dst2Pow src (work ||| (b <<< workBits)) (workBits + src2Pow)
termination_by (src.length, workBits)
decreasing_by
  · exact Prod.Lex.right _ (by omega)
  · exact Prod.Lex.left _ _ (by simp)

/-- The `k`-th group of `d` bits of the number `v`, least significant group first. -/
def bitsAt (d v k : Nat) : Nat := v / 2 ^ (d * k) % 2 ^ d

/-- The number whose groups of `s` bits, least significant group first, are the bytes `src`. -/
def bitValue (s : Nat) : List Nat → Nat
  | [] => 0
  | b :: src => b + 2 ^ s * bitValue s src

/-! ## A small cipher for the examples -/

/-- A cipher for the examples: the key is a number, a block is shifted byte by byte by
`seed + key`, and the MAC is a sum. -/
def toyCipher : Cipher Nat where
  MAC_16 := fun buf key iv =>
    ((buf.sum + key + iv.getD 0) % 65536, iv.map fun v => (v + buf.sum + 1) % 2 ^ 64)
  blockEncode := fun buf seed key => buf.map fun b => (b + seed + key) % 256
  blockDecode := fun buf seed key => buf.map fun b => (b + 256 - (seed + key) % 256) % 256
  blockEncode_length := fun buf seed key => by simp
  blockDecode_length := fun buf seed key => by simp
  blockEncode_bytes := fun buf seed key b hb => by
    rw [List.mem_map] at hb
    obtain ⟨a, _, rfl⟩ := hb
    exact Nat.mod_lt _ (by decide)
  blockDecode_bytes := fun buf seed key b hb => by
    rw [List.mem_map] at hb
    obtain ⟨a, _, rfl⟩ := hb
    exact Nat.mod_lt _ (by decide)

/-- A codec for the examples: interface version 3, block size 8, the toy cipher, key 5. -/
def toyCodec : B32BlockNameIO Nat := ⟨3, 8, toyCipher, 5⟩

/-! ## The stages of `decodeName` -/

namespace B32BlockNameIO

variable {Key : Type}

/-- The local `decodedStreamLen` of `decodeName`: `B32ToB256Bytes( length ) - 2`. -/
def decodedStreamLen (length : Nat) : Int := (B32ToB256Bytes length : Int) - 2

/-- The scratch buffer `tmpBuf` of `decodeName` after `AsciiToB32` and `changeBase2Inline`. -/
def radixDecoded (encodedName : List Nat) : Buffer :=
  changeBase2Inline (AsciiToB32 (fun _ => 0) encodedName) encodedName.length 5 8 false

/-- The local `mac` of `decodeName`: the first two radix-decoded bytes, high byte first. -/
def storedMac (encodedName : List Nat) : Nat :=
  ((radixDecoded encodedName 0 % 256) <<< 8) ||| (radixDecoded encodedName 1 % 256)

/-- The scratch buffer `tmpBuf` of `decodeName` after `blockDecode`. -/
def decryptedBuf (io : B32BlockNameIO Key) (encodedName : List Nat) (iv : Option Nat) : Buffer :=
  (radixDecoded encodedName).write 2
    (io._cipher.blockDecode
      ((radixDecoded encodedName).slice 2 (decodedStreamLen encodedName.length).toNat)
      (storedMac encodedName ^^^ io.tmpIV iv) io._key)

/-- The local `padding` of `decodeName`: the byte `tmpBuf[2+decodedStreamLen-1]`, the last
byte of the decrypted payload. -/
def paddingByte (io : B32BlockNameIO Key) (encodedName : List Nat) (iv : Option Nat) : Int :=
  decryptedBuf io encodedName iv ((2 + decodedStreamLen encodedName.length - 1).toNat) % 256

/-- The decrypted payload of `decodeName`: the `decodedStreamLen` bytes at `tmpBuf+2` after
`blockDecode`, which the MAC is recomputed over. -/
def payload (io : B32BlockNameIO Key) (encodedName : List Nat) (iv : Option Nat) : List Nat :=
  (decryptedBuf io encodedName iv).slice 2 (decodedStreamLen encodedName.length).toNat

end B32BlockNameIO

/-- The letter of the opposite case, and every other byte unchanged. -/
def swapCase (c : Nat) : Nat :=
  if 'A'.toNat ≤ c ∧ c ≤ 'Z'.toNat then c + 32
  else if 'a'.toNat ≤ c ∧ c ≤ 'z'.toNat then c - 32
  else c

/-! ## The recursion of the in-place converter, call by call -/

/-- The arguments `(src, srcLen, work, workBits)` of the recursive call that a call of the
recursive `changeBase2Inline` with the arguments `st` makes, or `none` when it makes none: the
reading loop, then `if(srcLen)` with `work >>= dst2Pow; workBits -= dst2Pow`. -/
def changeBase2Inline.nextCall (buf : Buffer) (src2Pow dst2Pow : Nat)
    (st : Nat × Nat × Nat × Int) : Option (Nat × Nat × Nat × Int) :=
  match changeBase2Inline.read buf src2Pow dst2Pow st.2.1 st.1 st.2.2.1 st.2.2.2 with
  | (src1, srcLen1, work1, workBits1) =>
    if srcLen1 ≠ 0 then some (src1, srcLen1, work1 >>> dst2Pow, workBits1 - dst2Pow) else none

/-- The number of nested recursive calls below a call with the arguments `st`, followed for at
most `fuel` calls: `none` when the recursion has not ended within `fuel` calls. -/
def changeBase2Inline.depth (buf : Buffer) (src2Pow dst2Pow : Nat) :
    Nat → Nat × Nat × Nat × Int → Option Nat
  | 0, _ => none
  | fuel + 1, st =>
    match changeBase2Inline.nextCall buf src2Pow dst2Pow st with
    | none => some 0
    | some st1 => (depth buf src2Pow dst2Pow fuel st1).map (· + 1)

/-- The arguments of the calls of the recursive `changeBase2Inline`, from a call with the
arguments `st` on, the first `fuel` of them. -/
def changeBase2Inline.calls (buf : Buffer) (src2Pow dst2Pow : Nat) :
    Nat → Nat × Nat × Nat × Int → List (Nat × Nat × Nat × Int)
  | 0, _ => []
  | fuel + 1, st =>
    st :: match changeBase2Inline.nextCall buf src2Pow dst2Pow st with
      | none => []
      | some st1 => calls buf src2Pow dst2Pow fuel st1

/-- The register `(work, workBits)` at every head of the reading loop of one call of the
recursive `changeBase2Inline`, in order, marked `true` where the loop goes on to OR a byte in
and `false` where it ends. -/
def changeBase2Inline.readStates (buf : Buffer) (src2Pow dst2Pow : Nat) :
    Nat → Nat → Nat → Int → List (Bool × Nat × Int)
  | 0, _, work, workBits => [(false, work, workBits)]
  | srcLen + 1, src, work, workBits =>
    if workBits < dst2Pow then
      (true, work, workBits) ::
        readStates buf src2Pow dst2Pow srcLen (src + 1) (work ||| (buf src <<< workBits.toNat))
          (workBits + src2Pow)
    else [(false, work, workBits)]

/-- The register `(work, workBits)` at every head of the inner loop of `changeBase2`, in
order. -/
def changeBase2.drainStates (dst2Pow : Nat) (work workBits : Nat) : List (Nat × Nat) :=
  (work, workBits) ::
    if _h : dst2Pow ≤ workBits ∧ 0 < dst2Pow then
      drainStates dst2Pow (work >>> dst2Pow) (workBits - dst2Pow)
    else []
termination_by workBits
decreasing_by omega

/-- The register `(work, workBits)` at every loop head of `changeBase2`, in order: marked
`true` at the head of the outer loop where a byte is about to be OR-ed in, `false` at the heads
of the inner loop and at the head of the outer loop that ends it. -/
def changeBase2.loopStates (src2Pow dst2Pow : Nat) :
    List Nat → Nat → Nat → List (Bool × Nat × Nat)
  | [], work, workBits => [(false, work, workBits)]
  | b :: src, work, workBits =>
    (true, work, workBits) ::
      ((drainStates dst2Pow (work ||| (b <<< workBits)) (workBits + src2Pow)).map
        fun st => (false, st.1, st.2)) ++
      loopStates src2Pow dst2Pow src
        (drain dst2Pow (work ||| (b <<< workBits)) (workBits + src2Pow) []).1
        (drain dst2Pow (work ||| (b <<< workBits)) (workBits + src2Pow) []).2.1

/-! ## Buffer lemmas -/

namespace Buffer

theorem write_nil (buf : Buffer) (o : Nat) : buf.write o [] = buf := by
  funext j
  simp [write]

theorem set_write_succ (buf : Buffer) (o v : Nat) (xs : List Nat) :
    (buf.write (o + 1) xs).set o v = buf.write o (v :: xs) := by
  funext j
  simp only [set, write, List.length_cons]
  by_cases h1 : j = o
  · subst h1; simp
  · simp only [h1, if_false]
    by_cases h2 : o + 1 ≤ j ∧ j < o + 1 + xs.length
    · have h3 : o ≤ j ∧ j < o + (xs.length + 1) := by omega
      have h4 : j - o = (j - (o + 1)) + 1 := by omega
      rw [if_pos h2, if_pos h3, h4, List.getD_cons_succ]
    · have h3 : ¬ (o ≤ j ∧ j < o + (xs.length + 1)) := by omega
      rw [if_neg h2, if_neg h3]

theorem set_eq_write (buf : Buffer) (o v : Nat) : buf.set o v = buf.write o [v] := by
  rw [← set_write_succ, write_nil]

theorem slice_zero (buf : Buffer) (off : Nat) : buf.slice off 0 = [] := rfl

theorem slice_succ (buf : Buffer) (off n : Nat) :
    buf.slice off (n + 1) = buf off :: buf.slice (off + 1) n := by
  simp only [slice, List.range_succ_eq_map, List.map_cons, List.map_map, Nat.add_zero]
  congr 1
  apply List.map_congr_left
  intro i _
  simp only [Function.comp]
  congr 1
  omega

theorem length_slice (buf : Buffer) (off n : Nat) : (buf.slice off n).length = n := by
  simp [slice]

theorem slice_write_self (buf : Buffer) (off : Nat) (xs : List Nat) :
    (buf.write off xs).slice off xs.length = xs := by
  apply List.ext_getElem
  · simp [slice]
  · intro i h1 h2
    simp only [slice, List.length_map, List.length_range] at h1
    simp [slice, write, h1, List.getD_eq_getElem]

end Buffer

/-! ## The converter and the bit stream -/

theorem bitGroups_emit (s d : Nat) (src : List Nat) (w wb : Nat) (h : d ≤ wb) (hd : 0 < d) :
    bitGroups s d src w wb =
      ((w &&& ((1 <<< d) - 1)) % 256) :: bitGroups s d src (w >>> d) (wb - d) := by
  rw [bitGroups.eq_def, dif_pos ⟨h, hd⟩]

theorem bitGroups_nil (s d : Nat) (w wb : Nat) (h : wb < d) :
    bitGroups s d [] w wb = if wb ≠ 0 then [(w &&& ((1 <<< d) - 1)) % 256] else [] := by
  rw [bitGroups.eq_def, dif_neg (by omega)]

theorem bitGroups_cons (s d : Nat) (b : Nat) (src : List Nat) (w wb : Nat) (h : wb < d) :
    bitGroups s d (b :: src) w wb = bitGroups s d src (w ||| (b <<< wb)) (wb + s) := by
  rw [bitGroups.eq_def, dif_neg (by omega)]

theorem drain_spec (s d : Nat) (hd : 0 < d) (src : List Nat) :
    ∀ (n w wb : Nat) (out : List Nat), wb ≤ n →
      ∃ ys, (changeBase2.drain d w wb out).2.2 = out ++ ys ∧
        (changeBase2.drain d w wb out).2.1 < d ∧
        bitGroups s d src w wb = ys ++ bitGroups s d src (changeBase2.drain d w wb out).1
          (changeBase2.drain d w wb out).2.1 := by
  intro n
  induction n with
  | zero =>
    intro w wb out h
    have h0 : wb = 0 := by omega
    subst h0
    rw [changeBase2.drain, dif_neg (by omega)]
    exact ⟨[], by simp, hd, by simp⟩
  | succ n ih =>
    intro w wb out h
    by_cases hc : d ≤ wb
    · rw [changeBase2.drain, dif_pos ⟨hc, hd⟩]
      obtain ⟨ys, h1, h2, h3⟩ := ih (w >>> d) (wb - d)
        (out ++ [(w &&& ((1 <<< d) - 1)) % 256]) (by omega)
      refine ⟨((w &&& ((1 <<< d) - 1)) % 256) :: ys, ?_, h2, ?_⟩
      · rw [h1]; simp
      · rw [bitGroups_emit s d src w wb hc hd, h3]; simp
    · rw [changeBase2.drain, dif_neg (by omega)]
      exact ⟨[], by simp, by simp only; omega, by simp⟩

theorem loop_spec (s d : Nat) (hd : 0 < d) :
    ∀ (src : List Nat) (w wb : Nat) (out : List Nat), wb < d →
      (changeBase2.loop s d src w wb out).2.1 < d ∧
      ∃ ys, (changeBase2.loop s d src w wb out).2.2 = out ++ ys ∧
        bitGroups s d src w wb =
          ys ++ bitGroups s d [] (changeBase2.loop s d src w wb out).1
            (changeBase2.loop s d src w wb out).2.1 := by
  intro src
  induction src with
  | nil =>
    intro w wb out h
    simp only [changeBase2.loop]
    exact ⟨h, [], by simp, by simp⟩
  | cons b src ih =>
    intro w wb out h
    simp only [changeBase2.loop]
    obtain ⟨ys, h1, h2, h3⟩ := drain_spec s d hd src (wb + s) (w ||| (b <<< wb)) (wb + s) out
      (Nat.le_refl _)
    obtain ⟨h4, zs, h5, h6⟩ := ih (changeBase2.drain d (w ||| (b <<< wb)) (wb + s) out).1
      (changeBase2.drain d (w ||| (b <<< wb)) (wb + s) out).2.1
      (changeBase2.drain d (w ||| (b <<< wb)) (wb + s) out).2.2 h2
    refine ⟨h4, ys ++ zs, ?_, ?_⟩
    · rw [h5, h1]; simp
    · rw [bitGroups_cons s d b src w wb h, h3, h6]; simp

theorem changeBase2_eq_bitGroups (s d dstLen : Nat) (hd : 0 < d) (src : List Nat)
    (hlen : (bitGroups s d src 0 0).length ≤ dstLen) :
    changeBase2 src s dstLen d = bitGroups s d src 0 0 := by
  obtain ⟨h1, ys, h2, h3⟩ := loop_spec s d hd src 0 0 [] hd
  simp only [changeBase2]
  rw [h3] at hlen ⊢
  rw [bitGroups_nil s d _ _ h1] at hlen ⊢
  rw [h2]
  simp only [List.nil_append] at *
  by_cases hz : (changeBase2.loop s d src 0 0 []).2.1 = 0
  · simp [hz]
  · simp only [ne_eq, hz, not_false_eq_true, if_true, List.length_append, List.length_singleton,
      true_and] at hlen ⊢
    rw [if_pos (by omega)]

/-- Induction along the recursion of `bitGroups`. -/
theorem bitGroups_induction (s d : Nat) (hd : 0 < d) (P : List Nat → Nat → Nat → Prop)
    (emit : ∀ src w wb, d ≤ wb → P src (w >>> d) (wb - d) → P src w wb)
    (done : ∀ w wb, wb < d → P [] w wb)
    (read : ∀ b src w wb, wb < d → P src (w ||| (b <<< wb)) (wb + s) → P (b :: src) w wb) :
    ∀ src w wb, P src w wb := by
  have inner : ∀ src, (∀ w wb, wb < d → P src w wb) → ∀ n w wb, wb ≤ n → P src w wb := by
    intro src hsmall n
    induction n with
    | zero => intro w wb h; exact hsmall w wb (by omega)
    | succ n ih =>
      intro w wb h
      by_cases hc : d ≤ wb
      · exact emit src w wb hc (ih _ _ (by omega))
      · exact hsmall w wb (by omega)
  intro src
  induction src with
  | nil => intro w wb; exact inner [] done wb w wb (Nat.le_refl _)
  | cons b src ih =>
    intro w wb
    exact inner (b :: src) (fun w wb h => read b src w wb h (ih _ _)) wb w wb (Nat.le_refl _)

theorem emitted_eq_mod (d w : Nat) (hd8 : d ≤ 8) :
    (w &&& ((1 <<< d) - 1)) % 256 = w % 2 ^ d := by
  rw [Nat.one_shiftLeft, Nat.and_pow_two_sub_one_eq_mod]
  apply Nat.mod_eq_of_lt
  calc w % 2 ^ d < 2 ^ d := Nat.mod_lt _ (Nat.two_pow_pos d)
    _ ≤ 2 ^ 8 := Nat.pow_le_pow_right (by omega) hd8
    _ = 256 := by norm_num

theorem emitted_lt (d w : Nat) : (w &&& ((1 <<< d) - 1)) % 256 < 2 ^ d := by
  rw [Nat.one_shiftLeft, Nat.and_pow_two_sub_one_eq_mod]
  exact lt_of_le_of_lt (Nat.mod_le _ _) (Nat.mod_lt _ (Nat.two_pow_pos d))

theorem emitted_lt_256 (d w : Nat) : (w &&& ((1 <<< d) - 1)) % 256 < 256 :=
  Nat.mod_lt _ (by norm_num)

/-- Number of symbols of `d` bits needed for `n` bits: `ceil(n / d)`. -/
theorem ceilDiv_step (d n : Nat) (hd : 0 < d) (h : d ≤ n) :
    (n + d - 1) / d = (n - d + d - 1) / d + 1 := by
  have h1 : n + d - 1 = (n - d + d - 1) + d := by omega
  rw [h1, Nat.add_div_right _ hd]

theorem bitGroups_length (s d : Nat) (hd : 0 < d) (src : List Nat) (w wb : Nat) :
    (bitGroups s d src w wb).length = (wb + s * src.length + d - 1) / d := by
  refine bitGroups_induction s d hd
    (fun src w wb => (bitGroups s d src w wb).length = (wb + s * src.length + d - 1) / d)
    ?_ ?_ ?_ src w wb
  · intro src w wb h ih
    rw [bitGroups_emit s d src w wb h hd, List.length_cons, ih,
      ceilDiv_step d (wb + s * src.length) hd (by omega)]
    congr 2
    omega
  · intro w wb h
    rw [bitGroups_nil s d w wb h]
    by_cases hz : wb = 0
    · subst hz
      simp only [ne_eq, not_true_eq_false, if_false, List.length_nil, Nat.mul_zero, Nat.add_zero,
        Nat.zero_add]
      exact (Nat.div_eq_of_lt (by omega)).symm
    · simp only [ne_eq, hz, not_false_eq_true, if_true, List.length_singleton, List.length_nil,
        Nat.mul_zero, Nat.add_zero]
      symm
      apply Nat.div_eq_of_lt_le <;> omega
  · intro b src w wb h ih
    rw [bitGroups_cons s d b src w wb h, ih, List.length_cons]
    congr 2
    rw [Nat.mul_succ]
    omega

theorem bitGroups_lt (s d : Nat) (hd : 0 < d) (src : List Nat) (w wb : Nat) :
    ∀ y ∈ bitGroups s d src w wb, y < 2 ^ d ∧ y < 256 := by
  refine bitGroups_induction s d hd
    (fun src w wb => ∀ y ∈ bitGroups s d src w wb, y < 2 ^ d ∧ y < 256) ?_ ?_ ?_ src w wb
  · intro src w wb h ih y hy
    rw [bitGroups_emit s d src w wb h hd, List.mem_cons] at hy
    rcases hy with rfl | hy
    · exact ⟨emitted_lt d w, emitted_lt_256 d w⟩
    · exact ih y hy
  · intro w wb h y hy
    rw [bitGroups_nil s d w wb h] at hy
    split at hy
    · rw [List.mem_singleton] at hy
      subst hy
      exact ⟨emitted_lt d w, emitted_lt_256 d w⟩
    · simp at hy
  · intro b src w wb h ih y hy
    rw [bitGroups_cons s d b src w wb h] at hy
    exact ih y hy

/-! ## The in-place converter -/

theorem changeBase2InlineAux_unfold (buf : Buffer) (src srcLen s d : Nat) (flag : Bool)
    (work : Nat) (workBits : Int) (outLoc : Option Nat) :
    changeBase2InlineAux buf src srcLen s d flag work workBits outLoc =
      if (changeBase2Inline.read buf s d srcLen src work workBits).2.1 ≠ 0 ∧ 0 < d then
        (changeBase2InlineAux buf (changeBase2Inline.read buf s d srcLen src work workBits).1
          (changeBase2Inline.read buf s d srcLen src work workBits).2.1 s d flag
          ((changeBase2Inline.read buf s d srcLen src work workBits).2.2.1 >>> d)
          ((changeBase2Inline.read buf s d srcLen src work workBits).2.2.2 - d)
          (some (outLoc.getD src + 1))).set (outLoc.getD src)
          (((changeBase2Inline.read buf s d srcLen src work workBits).2.2.1 &&&
            ((1 <<< d) - 1)) % 256)
      else if flag then
        changeBase2Inline.flush d
          (buf.set (outLoc.getD src)
            (((changeBase2Inline.read buf s d srcLen src work workBits).2.2.1 &&&
              ((1 <<< d) - 1)) % 256))
          (outLoc.getD src + 1)
          ((changeBase2Inline.read buf s d srcLen src work workBits).2.2.1 >>> d)
          ((changeBase2Inline.read buf s d srcLen src work workBits).2.2.2 - d)
      else
        buf.set (outLoc.getD src)
          (((changeBase2Inline.read buf s d srcLen src work workBits).2.2.1 &&&
            ((1 <<< d) - 1)) % 256) := by
  rw [changeBase2InlineAux]
  split
  rename_i h
  simp only [h]
  rfl

theorem read_spec (buf : Buffer) (s d : Nat) :
    ∀ (n src w wb : Nat),
      ∃ wb1 : Nat, (changeBase2Inline.read buf s d n src w (wb : Int)).2.2.2 = (wb1 : Int) ∧
        bitGroups s d (buf.slice src n) w wb =
          bitGroups s d
            (buf.slice (changeBase2Inline.read buf s d n src w (wb : Int)).1
              (changeBase2Inline.read buf s d n src w (wb : Int)).2.1)
            (changeBase2Inline.read buf s d n src w (wb : Int)).2.2.1 wb1 ∧
        ((changeBase2Inline.read buf s d n src w (wb : Int)).2.1 ≠ 0 → d ≤ wb1) ∧
        (changeBase2Inline.read buf s d n src w (wb : Int)).2.1 * s + wb1 = n * s + wb ∧
        (wb < d + s → wb1 < d + s) := by
  intro n
  induction n with
  | zero =>
    intro src w wb
    exact ⟨wb, by simp [changeBase2Inline.read]⟩
  | succ n ih =>
    intro src w wb
    by_cases hc : wb < d
    · have hc1 : (wb : Int) < (d : Int) := by omega
      obtain ⟨wb1, h1, h2, h3, h4, h5⟩ := ih (src + 1) (w ||| (buf src <<< wb)) (wb + s)
      have e : changeBase2Inline.read buf s d (n + 1) src w (wb : Int) =
          changeBase2Inline.read buf s d n (src + 1) (w ||| (buf src <<< wb))
            ((wb + s : Nat) : Int) := by
        rw [changeBase2Inline.read, if_pos hc1]
        simp
      rw [e]
      refine ⟨wb1, h1, ?_, h3, ?_, fun _ => h5 (by omega)⟩
      · rw [Buffer.slice_succ, bitGroups_cons s d _ _ _ _ hc, h2]
      · rw [h4, Nat.succ_mul]; omega
    · have hc1 : ¬ (wb : Int) < (d : Int) := by omega
      have e : changeBase2Inline.read buf s d (n + 1) src w (wb : Int) =
          (src, n + 1, w, (wb : Int)) := by
        rw [changeBase2Inline.read, if_neg hc1]
      rw [e]
      exact ⟨wb, rfl, rfl, fun _ => by omega, rfl, fun h => h⟩

theorem set_then_write (buf : Buffer) (o v : Nat) (xs : List Nat) :
    (buf.set o v).write (o + 1) xs = buf.write o (v :: xs) := by
  rw [← Buffer.set_write_succ]
  funext j
  simp only [Buffer.set, Buffer.write]
  by_cases h1 : j = o
  · subst h1; simp
  · simp [h1]

theorem flush_spec (s d : Nat) (hd : 0 < d) :
    ∀ (m : Nat) (buf : Buffer) (o w : Nat) (wb : Int), wb.toNat ≤ m →
      changeBase2Inline.flush d buf o w wb = buf.write o (bitGroups s d [] w wb.toNat) := by
  intro m
  induction m with
  | zero =>
    intro buf o w wb h
    have h0 : wb.toNat = 0 := by omega
    rw [changeBase2Inline.flush, dif_neg (by omega), h0, bitGroups_nil s d w 0 hd]
    simp [Buffer.write_nil]
  | succ m ih =>
    intro buf o w wb h
    by_cases hp : 0 < wb
    · rw [changeBase2Inline.flush, dif_pos ⟨hp, hd⟩, ih _ _ _ _ (by omega), set_then_write]
      by_cases hc : d ≤ wb.toNat
      · rw [bitGroups_emit s d [] w wb.toNat hc hd]
        have e : (wb - (d : Int)).toNat = wb.toNat - d := by omega
        rw [e]
      · have e : (wb - (d : Int)).toNat = 0 := by omega
        have hne : wb.toNat ≠ 0 := by omega
        rw [e, bitGroups_nil s d _ 0 hd, bitGroups_nil s d w wb.toNat (by omega)]
        simp [hne]
    · have h0 : wb.toNat = 0 := by omega
      rw [changeBase2Inline.flush, dif_neg (by omega), h0, bitGroups_nil s d w 0 hd]
      simp [Buffer.write_nil]

/-- With `outputPartialLastByte` set, the recursive converter stores the whole bit stream. -/
theorem inlineAux_true (buf : Buffer) (s d : Nat) (hs : 0 < s) (hd : 0 < d) :
    ∀ (m n src w wb : Nat) (outLoc : Option Nat), n * s + wb ≤ m → (0 < n ∨ 0 < wb) →
      changeBase2InlineAux buf src n s d true w (wb : Int) outLoc =
        buf.write (outLoc.getD src) (bitGroups s d (buf.slice src n) w wb) := by
  intro m
  induction m with
  | zero =>
    intro n src w wb outLoc h hpos
    exfalso
    rcases hpos with hn | hw
    · have : 0 < n * s := Nat.mul_pos hn hs
      omega
    · omega
  | succ m ih =>
    intro n src w wb outLoc h hpos
    obtain ⟨wb1, h1, h2, h3, h4, _⟩ := read_spec buf s d n src w wb
    rw [changeBase2InlineAux_unfold, h2, h1]
    by_cases hr : (changeBase2Inline.read buf s d n src w (wb : Int)).2.1 ≠ 0
    · have hle := h3 hr
      have e : ((wb1 : Int) - (d : Int)) = ((wb1 - d : Nat) : Int) := by omega
      rw [if_pos ⟨hr, hd⟩, e, ih _ _ _ _ _ (by omega) (Or.inl (Nat.pos_of_ne_zero hr))]
      simp only [Option.getD_some]
      rw [Buffer.set_write_succ, ← bitGroups_emit s d _ _ wb1 hle hd]
    · have hr0 : (changeBase2Inline.read buf s d n src w (wb : Int)).2.1 = 0 := by
        simpa using hr
      have hwb1 : 0 < wb1 := by
        rw [hr0] at h4
        rcases hpos with hn | hw
        · have : 0 < n * s := Nat.mul_pos hn hs
          omega
        · omega
      rw [if_neg (fun hx => hr hx.1), if_pos rfl, flush_spec s d hd _ _ _ _ _ (Nat.le_refl _),
        set_then_write, hr0, Buffer.slice_zero]
      by_cases hc : d ≤ wb1
      · rw [bitGroups_emit s d [] _ wb1 hc hd]
        have e : ((wb1 : Int) - (d : Int)).toNat = wb1 - d := by omega
        rw [e]
      · have e : ((wb1 : Int) - (d : Int)).toNat = 0 := by omega
        have hne : wb1 ≠ 0 := by omega
        rw [e, bitGroups_nil s d _ 0 hd, bitGroups_nil s d _ wb1 (by omega)]
        simp [hne]

/-- Without `outputPartialLastByte`, converting to a wider symbol (`s <= d`): the recursive
converter stores a prefix of the bit stream that holds every complete symbol. -/
theorem inlineAux_false (buf : Buffer) (s d : Nat) (hs : 0 < s) (hsd : s ≤ d) :
    ∀ (m n src w wb : Nat) (outLoc : Option Nat), n * s + wb ≤ m → 0 < n → wb < d →
      ∃ k, (n * s + wb) / d ≤ k ∧
        changeBase2InlineAux buf src n s d false w (wb : Int) outLoc =
          buf.write (outLoc.getD src) ((bitGroups s d (buf.slice src n) w wb).take k) := by
  have hd : 0 < d := by omega
  intro m
  induction m with
  | zero =>
    intro n src w wb outLoc h hn _
    exfalso
    have : 0 < n * s := Nat.mul_pos hn hs
    omega
  | succ m ih =>
    intro n src w wb outLoc h hn hwb
    obtain ⟨wb1, h1, h2, h3, h4, h5⟩ := read_spec buf s d n src w wb
    have h6 := h5 (by omega)
    rw [changeBase2InlineAux_unfold, h2, h1, ← h4]
    by_cases hr : (changeBase2Inline.read buf s d n src w (wb : Int)).2.1 ≠ 0
    · have hle := h3 hr
      have e : ((wb1 : Int) - (d : Int)) = ((wb1 - d : Nat) : Int) := by omega
      obtain ⟨k, hk, hrec⟩ := ih (changeBase2Inline.read buf s d n src w (wb : Int)).2.1
        (changeBase2Inline.read buf s d n src w (wb : Int)).1
        ((changeBase2Inline.read buf s d n src w (wb : Int)).2.2.1 >>> d) (wb1 - d)
        (some (outLoc.getD src + 1)) (by omega) (Nat.pos_of_ne_zero hr) (by omega)
      refine ⟨k + 1, ?_, ?_⟩
      · have e2 : (changeBase2Inline.read buf s d n src w (wb : Int)).2.1 * s + wb1 =
            ((changeBase2Inline.read buf s d n src w (wb : Int)).2.1 * s + (wb1 - d)) + d := by
          omega
        rw [e2, Nat.add_div_right _ hd]
        omega
      · rw [if_pos ⟨hr, hd⟩, e, hrec]
        simp only [Option.getD_some]
        rw [Buffer.set_write_succ, bitGroups_emit s d _ _ wb1 hle hd, List.take_succ_cons]
    · have hr0 : (changeBase2Inline.read buf s d n src w (wb : Int)).2.1 = 0 := by
        simpa using hr
      have hwb1 : 0 < wb1 := by
        rw [hr0] at h4
        have : 0 < n * s := Nat.mul_pos hn hs
        omega
      refine ⟨1, ?_, ?_⟩
      · rw [hr0]
        have : wb1 / d < 2 := (Nat.div_lt_iff_lt_mul hd).2 (by omega)
        simp only [Nat.zero_mul, Nat.zero_add]
        omega
      · rw [if_neg (fun hx => hr hx.1), hr0, Buffer.slice_zero]
        simp only [Bool.false_eq_true, if_false]
        by_cases hc : d ≤ wb1
        · rw [bitGroups_emit s d [] _ wb1 hc hd, Buffer.set_eq_write]
          simp
        · have hne : wb1 ≠ 0 := by omega
          rw [bitGroups_nil s d _ wb1 (by omega), Buffer.set_eq_write]
          simp [hne]

/-! ## The bit stream as a number -/

theorem bitsAt_zero (d v : Nat) : bitsAt d v 0 = v % 2 ^ d := by
  simp [bitsAt]

theorem bitsAt_succ (d v k : Nat) : bitsAt d v (k + 1) = bitsAt d (v / 2 ^ d) k := by
  simp only [bitsAt]
  rw [Nat.mul_succ, Nat.add_comm (d * k) d, Nat.pow_add, Nat.div_div_eq_div_mul]

theorem bitsAt_lt (d v k : Nat) : bitsAt d v k < 2 ^ d :=
  Nat.mod_lt _ (Nat.two_pow_pos d)

theorem bitsAt_of_lt (d v k : Nat) (h : v < 2 ^ (d * k)) : bitsAt d v k = 0 := by
  simp [bitsAt, Nat.div_eq_of_lt h]

theorem or_shiftLeft_eq_add (w b wb : Nat) (h : w < 2 ^ wb) :
    w ||| (b <<< wb) = w + 2 ^ wb * b := by
  rw [Nat.shiftLeft_eq, Nat.lor_comm, Nat.mul_comm b, ← Nat.mul_add_lt_is_or h, Nat.add_comm]

/-- Reading a byte keeps `work < 2 ^ (workBits + 8)`, whatever `src2Pow` is added to
`workBits`. -/
theorem work_read_lt (w b wb s : Nat) (hw : w < 2 ^ (wb + 8)) (hb : b < 256) :
    w ||| (b <<< wb) < 2 ^ (wb + s + 8) := by
  have h1 : b <<< wb < 2 ^ (wb + 8) := by
    rw [Nat.shiftLeft_eq, Nat.pow_add, Nat.mul_comm]
    exact Nat.mul_lt_mul_of_pos_left (by norm_num; exact hb) (Nat.two_pow_pos wb)
  exact lt_of_lt_of_le (Nat.or_lt_two_pow hw h1) (Nat.pow_le_pow_right (by decide) (by omega))

/-- Emitting a symbol keeps `work < 2 ^ (workBits + 8)`. -/
theorem work_emit_lt (w wb d : Nat) (hw : w < 2 ^ (wb + 8)) (hd : d ≤ wb) :
    w >>> d < 2 ^ (wb - d + 8) := by
  rw [Nat.shiftRight_eq_div_pow, Nat.div_lt_iff_lt_mul (Nat.two_pow_pos d), ← Nat.pow_add]
  have e : wb - d + 8 + d = wb + 8 := by omega
  rw [e]
  exact hw

theorem split_low (d wb w r : Nat) (h : d ≤ wb) :
    w + 2 ^ wb * r = w + 2 ^ d * (2 ^ (wb - d) * r) := by
  rw [← Nat.mul_assoc, ← Nat.pow_add]
  congr 3
  omega

theorem bitGroups_eq_bitsAt (s d : Nat) (hd : 0 < d) (hd8 : d ≤ 8) (src : List Nat) (w wb : Nat) :
    (∀ b ∈ src, b < 2 ^ s) → w < 2 ^ wb →
      bitGroups s d src w wb =
        (List.range ((wb + s * src.length + d - 1) / d)).map
          (bitsAt d (w + 2 ^ wb * bitValue s src)) := by
  refine bitGroups_induction s d hd
    (fun src w wb => (∀ b ∈ src, b < 2 ^ s) → w < 2 ^ wb →
      bitGroups s d src w wb =
        (List.range ((wb + s * src.length + d - 1) / d)).map
          (bitsAt d (w + 2 ^ wb * bitValue s src))) ?_ ?_ ?_ src w wb
  · intro src w wb h ih hb hw
    have hw1 : w >>> d < 2 ^ (wb - d) := by
      rw [Nat.shiftRight_eq_div_pow, Nat.div_lt_iff_lt_mul (Nat.two_pow_pos d), ← Nat.pow_add]
      have e : wb - d + d = wb := by omega
      rw [e]
      exact hw
    have hc : (wb + s * src.length + d - 1) / d =
        (wb - d + s * src.length + d - 1) / d + 1 := by
      rw [ceilDiv_step d (wb + s * src.length) hd (by omega)]
      congr 2
      omega
    rw [bitGroups_emit s d src w wb h hd, ih hb hw1, hc, List.range_succ_eq_map, List.map_cons,
      List.map_map, emitted_eq_mod d w hd8, bitsAt_zero, split_low d wb w _ h,
      Nat.add_mul_mod_self_left]
    congr 1
    apply List.map_congr_left
    intro k _
    simp only [Function.comp, Nat.succ_eq_add_one]
    rw [bitsAt_succ, Nat.add_mul_div_left _ _ (Nat.two_pow_pos d), Nat.shiftRight_eq_div_pow]
  · intro w wb h _ _
    rw [bitGroups_nil s d w wb h]
    by_cases hz : wb = 0
    · subst hz
      have e : (0 + s * ([] : List Nat).length + d - 1) / d = 0 := by
        simp only [List.length_nil, Nat.mul_zero, Nat.add_zero, Nat.zero_add]
        exact Nat.div_eq_of_lt (by omega)
      rw [e]
      simp
    · have e : (wb + s * ([] : List Nat).length + d - 1) / d = 1 := by
        simp only [List.length_nil, Nat.mul_zero, Nat.add_zero]
        apply Nat.div_eq_of_lt_le <;> omega
      rw [e]
      simp [hz, bitValue, emitted_eq_mod d w hd8, bitsAt_zero, List.range_succ]
  · intro b src w wb h ih hb hw
    have hb0 : b < 2 ^ s := hb b (List.mem_cons_self _ _)
    have hb1 : ∀ c ∈ src, c < 2 ^ s := fun c hc => hb c (List.mem_cons_of_mem _ hc)
    have hw1 : w ||| (b <<< wb) < 2 ^ (wb + s) := by
      rw [or_shiftLeft_eq_add w b wb hw, Nat.pow_add]
      calc w + 2 ^ wb * b < 2 ^ wb + 2 ^ wb * b := by omega
        _ = 2 ^ wb * (b + 1) := by ring
        _ ≤ 2 ^ wb * 2 ^ s := Nat.mul_le_mul_left _ hb0
    rw [bitGroups_cons s d b src w wb h, ih hb1 hw1, or_shiftLeft_eq_add w b wb hw]
    have e1 : wb + s + s * src.length = wb + s * (b :: src).length := by
      rw [List.length_cons, Nat.mul_succ]; omega
    have e2 : w + 2 ^ wb * b + 2 ^ (wb + s) * bitValue s src =
        w + 2 ^ wb * bitValue s (b :: src) := by
      simp only [bitValue]
      rw [Nat.pow_add]
      ring
    rw [e1, e2]

theorem bitValue_lt (s : Nat) (x : List Nat) (hx : ∀ b ∈ x, b < 2 ^ s) :
    bitValue s x < 2 ^ (s * x.length) := by
  induction x with
  | nil => simp [bitValue]
  | cons b x ih =>
    have hb0 : b < 2 ^ s := hx b (List.mem_cons_self _ _)
    have h1 := ih (fun c hc => hx c (List.mem_cons_of_mem _ hc))
    simp only [bitValue, List.length_cons, Nat.mul_succ]
    rw [Nat.add_comm (s * x.length) s, Nat.pow_add]
    calc b + 2 ^ s * bitValue s x < 2 ^ s + 2 ^ s * bitValue s x := by omega
      _ = 2 ^ s * (bitValue s x + 1) := by ring
      _ ≤ 2 ^ s * 2 ^ (s * x.length) := Nat.mul_le_mul_left _ h1

theorem bitsAt_bitValue (s : Nat) (x : List Nat) (hx : ∀ b ∈ x, b < 2 ^ s) :
    ∀ k, bitsAt s (bitValue s x) k = x.getD k 0 := by
  induction x with
  | nil => intro k; simp [bitValue, bitsAt]
  | cons b x ih =>
    intro k
    have hb0 : b < 2 ^ s := hx b (List.mem_cons_self _ _)
    have h1 := ih (fun c hc => hx c (List.mem_cons_of_mem _ hc))
    cases k with
    | zero =>
      simp only [bitValue, bitsAt_zero, Nat.add_mul_mod_self_left, List.getD_cons_zero]
      exact Nat.mod_eq_of_lt hb0
    | succ k =>
      rw [bitsAt_succ, List.getD_cons_succ, ← h1 k]
      simp only [bitValue]
      rw [Nat.add_mul_div_left _ _ (Nat.two_pow_pos s), Nat.div_eq_of_lt hb0, Nat.zero_add]

theorem bitValue_bitsAt (d : Nat) : ∀ (m v : Nat), v < 2 ^ (d * m) →
    bitValue d ((List.range m).map (bitsAt d v)) = v := by
  intro m
  induction m with
  | zero =>
    intro v h
    simp only [Nat.mul_zero, Nat.pow_zero, Nat.lt_one_iff] at h
    simp [bitValue, h]
  | succ m ih =>
    intro v h
    have h1 : v / 2 ^ d < 2 ^ (d * m) := by
      rw [Nat.div_lt_iff_lt_mul (Nat.two_pow_pos d), ← Nat.pow_add]
      rw [Nat.mul_succ] at h
      exact h
    rw [List.range_succ_eq_map, List.map_cons, List.map_map]
    have e : (bitsAt d v ∘ Nat.succ) = bitsAt d (v / 2 ^ d) := by
      funext k
      simp only [Function.comp, Nat.succ_eq_add_one]
      exact bitsAt_succ d v k
    rw [e]
    simp only [bitValue]
    rw [ih _ h1, bitsAt_zero]
    exact Nat.mod_add_div v (2 ^ d)

/-! ## Radix 256 to radix 32 and back -/

theorem bytes_lt_pow (x : List Nat) (hx : ∀ b ∈ x, b < 256) : ∀ b ∈ x, b < 2 ^ 8 := by
  intro b hb
  have := hx b hb
  norm_num
  exact this

theorem bitGroups_8_5 (x : List Nat) (hx : ∀ b ∈ x, b < 256) :
    bitGroups 8 5 x 0 0 =
      (List.range ((x.length * 8 + 4) / 5)).map (bitsAt 5 (bitValue 8 x)) := by
  rw [bitGroups_eq_bitsAt 8 5 (by decide) (by decide) x 0 0 (bytes_lt_pow x hx) (by norm_num)]
  have e : (0 + 8 * x.length + 5 - 1) / 5 = (x.length * 8 + 4) / 5 := by omega
  rw [e]
  simp

theorem bitGroups_5_8_8_5 (x : List Nat) (hx : ∀ b ∈ x, b < 256) :
    bitGroups 5 8 (bitGroups 8 5 x 0 0) 0 0 =
      (List.range (((x.length * 8 + 4) / 5 * 5 + 7) / 8)).map (bitsAt 8 (bitValue 8 x)) := by
  have hv : bitValue 8 x < 2 ^ (5 * ((x.length * 8 + 4) / 5)) :=
    lt_of_lt_of_le (bitValue_lt 8 x (bytes_lt_pow x hx))
      (Nat.pow_le_pow_right (by decide) (by omega))
  rw [bitGroups_8_5 x hx,
    bitGroups_eq_bitsAt 5 8 (by decide) (by decide) _ 0 0
      (by
        intro b hb
        rw [List.mem_map] at hb
        obtain ⟨k, _, rfl⟩ := hb
        exact bitsAt_lt 5 _ k)
      (by norm_num),
    bitValue_bitsAt 5 _ _ hv]
  simp only [List.length_map, List.length_range, Nat.pow_zero, Nat.one_mul, Nat.zero_add]
  congr 2
  omega

/-- Reading the regrouped stream back: the first `length` bytes are the input, whatever follows
is zero. -/
theorem bitGroups_5_8_8_5_getD (x : List Nat) (hx : ∀ b ∈ x, b < 256) (k : Nat) :
    (bitGroups 5 8 (bitGroups 8 5 x 0 0) 0 0).getD k 0 = x.getD k 0 := by
  rw [bitGroups_5_8_8_5 x hx]
  by_cases hk : k < ((x.length * 8 + 4) / 5 * 5 + 7) / 8
  · rw [List.getD_eq_getElem _ _ (by simpa using hk)]
    simp only [List.getElem_map, List.getElem_range]
    exact bitsAt_bitValue 8 x (bytes_lt_pow x hx) k
  · rw [List.getD_eq_default _ _ (by simpa using hk), List.getD_eq_default _ _ (by omega)]

theorem roundtrip_len (n : Nat) :
    ((n * 8 + 4) / 5 * 5 + 7) / 8 = if n % 5 = 0 then n else n + 1 := by
  obtain ⟨q, r, hq, hr⟩ : ∃ q r, n = 5 * q + r ∧ r < 5 := ⟨n / 5, n % 5, by omega, by omega⟩
  subst hq
  interval_cases r <;> split <;> omega

theorem bitGroups_5_8_8_5_eq (x : List Nat) (hx : ∀ b ∈ x, b < 256) :
    bitGroups 5 8 (bitGroups 8 5 x 0 0) 0 0 = if x.length % 5 = 0 then x else x ++ [0] := by
  have hlen : (bitGroups 5 8 (bitGroups 8 5 x 0 0) 0 0).length =
      ((x.length * 8 + 4) / 5 * 5 + 7) / 8 := by
    rw [bitGroups_5_8_8_5 x hx]; simp
  apply List.ext_getElem
  · rw [hlen, roundtrip_len]
    split <;> simp
  · intro k h1 h2
    have h3 := bitGroups_5_8_8_5_getD x hx k
    rw [List.getD_eq_getElem _ _ h1] at h3
    rw [h3]
    split
    · rename_i h5
      rw [if_pos h5] at h2
      rw [List.getD_eq_getElem _ _ h2]
    · rename_i h5
      rw [if_neg h5] at h2
      by_cases hk : k < x.length
      · rw [List.getD_eq_getElem _ _ hk, List.getElem_append_left hk]
      · rw [List.getD_eq_default _ _ (by omega)]
        rw [List.length_append, List.length_singleton] at h2
        have hk2 : k = x.length := by omega
        subst hk2
        simp

/-! ## Claims on the radix converter -/

/-- C4: for every input, every `src2Pow` (1..8 in particular) and `dst2Pow` in 1..8, with a
destination of at least
`ceil(srcLen * src2Pow / dst2Pow)` bytes, `changeBase2` stores exactly
`ceil(srcLen * src2Pow / dst2Pow)` bytes, each below `2 ^ dst2Pow`. -/
theorem changeBase2_output_length (src : List Nat) (src2Pow dst2Pow dstLen : Nat)
    (hd : 1 ≤ dst2Pow ∧ dst2Pow ≤ 8)
    (hlen : (src.length * src2Pow + dst2Pow - 1) / dst2Pow ≤ dstLen) :
    (changeBase2 src src2Pow dstLen dst2Pow).length =
        (src.length * src2Pow + dst2Pow - 1) / dst2Pow ∧
      ∀ y ∈ changeBase2 src src2Pow dstLen dst2Pow, y < 2 ^ dst2Pow := by
  have hd0 : 0 < dst2Pow := hd.1
  have hl := bitGroups_length src2Pow dst2Pow hd0 src 0 0
  rw [Nat.zero_add, Nat.mul_comm] at hl
  rw [changeBase2_eq_bitGroups src2Pow dst2Pow dstLen hd0 src (by rw [hl]; exact hlen)]
  exact ⟨hl, fun y hy => (bitGroups_lt src2Pow dst2Pow hd0 src 0 0 y hy).1⟩

/-- C4, witness: 18 bytes from radix 256 to radix 32 give 29 symbols. -/
theorem changeBase2_output_length_witness :
    (changeBase2 (List.replicate 18 0) 8 29 5).length = 29 :=
  (changeBase2_output_length (List.replicate 18 0) 8 5 29 (by decide) (by decide)).1

/-- C3: converting bytes to radix 32 and back with `changeBase2`, into destinations large
enough for every symbol, gives the input again when its length is a multiple of 5, and the input
followed by one zero byte otherwise. -/
theorem changeBase2_roundtrip (x : List Nat) (dstLen1 dstLen2 : Nat)
    (hx : ∀ b ∈ x, b < 256)
    (h1 : (x.length * 8 + 4) / 5 ≤ dstLen1)
    (h2 : ((x.length * 8 + 4) / 5 * 5 + 7) / 8 ≤ dstLen2) :
    changeBase2 (changeBase2 x 8 dstLen1 5) 5 dstLen2 8 =
      if x.length % 5 = 0 then x else x ++ [0] := by
  have e1 : changeBase2 x 8 dstLen1 5 = bitGroups 8 5 x 0 0 := by
    apply changeBase2_eq_bitGroups 8 5 dstLen1 (by decide)
    rw [bitGroups_length 8 5 (by decide)]
    omega
  have e2 : changeBase2 (bitGroups 8 5 x 0 0) 5 dstLen2 8 =
      bitGroups 5 8 (bitGroups 8 5 x 0 0) 0 0 := by
    apply changeBase2_eq_bitGroups 5 8 dstLen2 (by decide)
    rw [bitGroups_length 5 8 (by decide), bitGroups_length 8 5 (by decide)]
    omega
  rw [e1, e2, bitGroups_5_8_8_5_eq x hx]

/-- C3, witness: three bytes come back followed by one zero byte. -/
theorem changeBase2_roundtrip_witness :
    changeBase2 (changeBase2 [1, 2, 255] 8 5 5) 5 4 8 = [1, 2, 255, 0] :=
  changeBase2_roundtrip [1, 2, 255] 5 4 (by decide) (by decide) (by decide)

/-- C2: for a buffer of `srcLen >= 1` bytes and `src2Pow`, `dst2Pow` in 1..8,
`changeBase2Inline` with `outputPartialLastByte` set leaves in the first
`ceil(srcLen * src2Pow / dst2Pow)` bytes of the buffer exactly the bytes `changeBase2` stores
for the same input (so every input byte was read before it was overwritten), and leaves the
bytes behind them as they were. -/
theorem changeBase2Inline_eq_changeBase2 (buf : Buffer) (srcLen src2Pow dst2Pow dstLen : Nat)
    (hn : 1 ≤ srcLen) (hs : 1 ≤ src2Pow ∧ src2Pow ≤ 8) (hd : 1 ≤ dst2Pow ∧ dst2Pow ≤ 8)
    (hlen : (srcLen * src2Pow + dst2Pow - 1) / dst2Pow ≤ dstLen) :
    (changeBase2Inline buf srcLen src2Pow dst2Pow true).slice 0
        ((srcLen * src2Pow + dst2Pow - 1) / dst2Pow) =
      changeBase2 (buf.slice 0 srcLen) src2Pow dstLen dst2Pow ∧
    ∀ j, (srcLen * src2Pow + dst2Pow - 1) / dst2Pow ≤ j →
      changeBase2Inline buf srcLen src2Pow dst2Pow true j = buf j := by
  have hd0 : 0 < dst2Pow := hd.1
  have hl := bitGroups_length src2Pow dst2Pow hd0 (buf.slice 0 srcLen) 0 0
  rw [Nat.zero_add, Buffer.length_slice, Nat.mul_comm] at hl
  have e1 := changeBase2_eq_bitGroups src2Pow dst2Pow dstLen hd0 (buf.slice 0 srcLen)
    (by rw [hl]; exact hlen)
  have e2 := inlineAux_true buf src2Pow dst2Pow hs.1 hd0 _ srcLen 0 0 0 none (Nat.le_refl _)
    (Or.inl hn)
  simp only [Option.getD_none, Nat.cast_zero] at e2
  rw [e1]
  unfold changeBase2Inline
  rw [e2]
  constructor
  · rw [← hl]
    exact Buffer.slice_write_self buf 0 _
  · intro j hj
    simp only [Buffer.write, hl]
    rw [if_neg (by omega)]

/-- C2, witness: two bytes converted in place to radix 32. -/
theorem changeBase2Inline_eq_changeBase2_witness :
    (changeBase2Inline (Buffer.ofList [255, 1]) 2 8 5 true).slice 0 ((2 * 8 + 5 - 1) / 5) =
        changeBase2 ((Buffer.ofList [255, 1]).slice 0 2) 8 4 5 ∧
      ∀ j, (2 * 8 + 5 - 1) / 5 ≤ j →
        changeBase2Inline (Buffer.ofList [255, 1]) 2 8 5 true j = Buffer.ofList [255, 1] j :=
  changeBase2Inline_eq_changeBase2 (Buffer.ofList [255, 1]) 2 8 5 4 (by decide) (by decide)
    (by decide) (by decide)

/-! ## The alphabet tables -/

namespace Buffer

theorem mapInPlace_apply (f : Nat → Nat) :
    ∀ (n : Nat) (buf : Buffer) (pos j : Nat),
      mapInPlace f buf pos n j = if pos ≤ j ∧ j < pos + n then f (buf j) else buf j := by
  intro n
  induction n with
  | zero =>
    intro buf pos j
    simp only [mapInPlace, Nat.add_zero]
    rw [if_neg (by omega)]
  | succ n ih =>
    intro buf pos j
    simp only [mapInPlace]
    rw [ih]
    by_cases h1 : j = pos
    · subst h1
      rw [if_neg (by omega), if_pos (by omega)]
      simp [set]
    · by_cases h2 : pos + 1 ≤ j ∧ j < pos + 1 + n
      · rw [if_pos h2, if_pos (by omega)]
        simp [set, h1]
      · rw [if_neg h2, if_neg (by omega)]
        simp [set, h1]

theorem translate_apply (f : Nat → Nat) :
    ∀ (inp : List Nat) (out : Buffer) (pos j : Nat),
      translate f out pos inp j =
        if pos ≤ j ∧ j < pos + inp.length then f (inp.getD (j - pos) 0) else out j := by
  intro inp
  induction inp with
  | nil =>
    intro out pos j
    simp only [translate, List.length_nil, Nat.add_zero]
    rw [if_neg (by omega)]
  | cons c inp ih =>
    intro out pos j
    simp only [translate, List.length_cons]
    rw [ih]
    by_cases h1 : j = pos
    · subst h1
      rw [if_neg (by omega), if_pos (by omega)]
      simp [set]
    · by_cases h2 : pos + 1 ≤ j ∧ j < pos + 1 + inp.length
      · have e : j - pos = (j - (pos + 1)) + 1 := by omega
        rw [if_pos h2, if_pos (by omega), e, List.getD_cons_succ]
      · rw [if_neg h2, if_neg (by omega)]
        simp [set, h1]

end Buffer

set_option maxRecDepth 100000 in
theorem b32_table_alphabet : ∀ v < 256,
    binary_to_ascii_base32_table.getD v 0 =
        ("abcdefghijklmnopqrstuvwxyz234567".toList.map Char.toNat).getD (v % 32) 0 ∧
      (('a'.toNat ≤ binary_to_ascii_base32_table.getD v 0 ∧
          binary_to_ascii_base32_table.getD v 0 ≤ 'z'.toNat) ∨
        ('2'.toNat ≤ binary_to_ascii_base32_table.getD v 0 ∧
          binary_to_ascii_base32_table.getD v 0 ≤ '7'.toNat)) := by
  decide


set_option maxRecDepth 100000 in
theorem b32_table_decode_encode : ∀ v < 32,
    ascii_to_binary_base32_table.getD (binary_to_ascii_base32_table.getD v 0) 0 = v := by
  decide

set_option maxRecDepth 100000 in
theorem b32_table_encode_decode : ∀ c < 256,
    (('a'.toNat ≤ c ∧ c ≤ 'z'.toNat) ∨ ('2'.toNat ≤ c ∧ c ≤ '7'.toNat)) →
      binary_to_ascii_base32_table.getD (ascii_to_binary_base32_table.getD c 0) 0 = c := by
  decide

set_option maxRecDepth 100000 in
theorem b64_conv_alphabet : ∀ v < 64,
    B64ToAscii.conv v =
        (",-0123456789ABCDEFGHIJKLMNOPQRSTUVWXYZabcdefghijklmnopqrstuvwxyz".toList.map
          Char.toNat).getD v 0 ∧
      AsciiToB64.conv (B64ToAscii.conv v) = v := by
  decide

set_option maxRecDepth 100000 in
theorem b64_conv_step : ∀ v < 63, B64ToAscii.conv v < B64ToAscii.conv (v + 1) := by
  decide

theorem b64_conv_strictMono : ∀ w v, v < w → w < 64 → B64ToAscii.conv v < B64ToAscii.conv w := by
  intro w
  induction w with
  | zero => intro v h; omega
  | succ w ih =>
    intro v h1 h2
    have h3 := b64_conv_step w (by omega)
    by_cases h4 : v = w
    · subst h4; exact h3
    · exact lt_trans (ih v (by omega) (by omega)) h3


theorem B32ToAscii_apply (buf : Buffer) (n j : Nat) :
    B32ToAscii buf n j =
      if j < n then binary_to_ascii_base32_table.getD (buf j) 0 else buf j := by
  unfold B32ToAscii
  rw [Buffer.mapInPlace_apply]
  simp

theorem AsciiToB32InPlace_apply (buf : Buffer) (n j : Nat) :
    AsciiToB32InPlace buf n j =
      if j < n then ascii_to_binary_base32_table.getD (buf j) 0 else buf j := by
  unfold AsciiToB32InPlace
  rw [Buffer.mapInPlace_apply]
  simp

theorem AsciiToB32_apply (out : Buffer) (inp : List Nat) (j : Nat) :
    AsciiToB32 out inp j =
      if j < inp.length then ascii_to_binary_base32_table.getD (inp.getD j 0) 0 else out j := by
  unfold AsciiToB32
  rw [Buffer.translate_apply]
  simp

theorem Buffer.getD_slice_zero (buf : Buffer) (n j : Nat) (h : j < n) :
    (buf.slice 0 n).getD j 0 = buf j := by
  rw [List.getD_eq_getElem _ _ (by simpa [Buffer.slice] using h)]
  simp [Buffer.slice]

theorem Buffer.slice_congr (a b : Buffer) (off n : Nat)
    (h : ∀ i < n, a (off + i) = b (off + i)) : a.slice off n = b.slice off n := by
  unfold Buffer.slice
  apply List.map_congr_left
  intro i hi
  exact h i (List.mem_range.1 hi)

/-- C9: the two radix-32 tables are mutually inverse on the alphabet: translating symbols
below 32 to characters and back gives the symbols again (in place, and into a second buffer),
and translating characters of `a-z`, `2-7` to symbols and back gives the characters again. -/
theorem b32_translation_roundtrip (buf out : Buffer) (n : Nat) :
    ((∀ i < n, buf i < 32) →
      AsciiToB32InPlace (B32ToAscii buf n) n = buf ∧
        (AsciiToB32 out ((B32ToAscii buf n).slice 0 n)).slice 0 n = buf.slice 0 n) ∧
    ((∀ i < n, ('a'.toNat ≤ buf i ∧ buf i ≤ 'z'.toNat) ∨ ('2'.toNat ≤ buf i ∧ buf i ≤ '7'.toNat)) →
      B32ToAscii (AsciiToB32InPlace buf n) n = buf) := by
  refine ⟨fun h => ⟨?_, ?_⟩, fun h => ?_⟩
  · funext j
    rw [AsciiToB32InPlace_apply, B32ToAscii_apply]
    by_cases hj : j < n
    · rw [if_pos hj, if_pos hj]
      exact b32_table_decode_encode _ (h j hj)
    · rw [if_neg hj, if_neg hj]
  · apply Buffer.slice_congr
    intro i hi
    rw [Nat.zero_add, AsciiToB32_apply, Buffer.length_slice, if_pos hi,
      Buffer.getD_slice_zero _ _ _ hi, B32ToAscii_apply, if_pos hi]
    exact b32_table_decode_encode _ (h i hi)
  · funext j
    rw [B32ToAscii_apply, AsciiToB32InPlace_apply]
    by_cases hj : j < n
    · rw [if_pos hj, if_pos hj]
      have hc := h j hj
      have h256 : buf j < 256 := by
        have e1 : 'z'.toNat = 122 := by decide
        have e2 : '7'.toNat = 55 := by decide
        omega
      exact b32_table_encode_decode _ h256 hc
    · rw [if_neg hj, if_neg hj]

/-- C9, witness: three symbols, and the four characters `a`, `z`, `2`, `7`. -/
theorem b32_translation_roundtrip_witness :
    (AsciiToB32InPlace (B32ToAscii (Buffer.ofList [0, 31, 26]) 3) 3 = Buffer.ofList [0, 31, 26] ∧
      (AsciiToB32 (Buffer.ofList []) ((B32ToAscii (Buffer.ofList [0, 31, 26]) 3).slice 0 3)).slice
        0 3 = (Buffer.ofList [0, 31, 26]).slice 0 3) ∧
    B32ToAscii (AsciiToB32InPlace (Buffer.ofList [97, 122, 50, 55]) 4) 4 =
      Buffer.ofList [97, 122, 50, 55] :=
  ⟨(b32_translation_roundtrip (Buffer.ofList [0, 31, 26]) (Buffer.ofList []) 3).1 (by decide),
    (b32_translation_roundtrip (Buffer.ofList [97, 122, 50, 55]) (Buffer.ofList []) 4).2
      (by decide)⟩

theorem B64ToAscii_apply (buf : Buffer) (n j : Nat) :
    B64ToAscii buf n j = if j < n then B64ToAscii.conv (buf j) else buf j := by
  unfold B64ToAscii
  rw [Buffer.mapInPlace_apply]
  simp

theorem AsciiToB64InPlace_apply (buf : Buffer) (n j : Nat) :
    AsciiToB64InPlace buf n j = if j < n then AsciiToB64.conv (buf j) else buf j := by
  unfold AsciiToB64InPlace
  rw [Buffer.mapInPlace_apply]
  simp

theorem AsciiToB64_apply (out : Buffer) (inp : List Nat) (j : Nat) :
    AsciiToB64 out inp j =
      if j < inp.length then AsciiToB64.conv (inp.getD j 0) else out j := by
  unfold AsciiToB64
  rw [Buffer.translate_apply]
  simp

/-- C10: on symbols below 64, `B64ToAscii` gives the character of that index in
`,-0123456789ABCDEFGHIJKLMNOPQRSTUVWXYZabcdefghijklmnopqrstuvwxyz`, a larger symbol gives a
larger character code, and `AsciiToB64` (in place, or into a second buffer) gives the symbols
back. -/
theorem b64_translation (buf out : Buffer) (n : Nat) (h : ∀ i < n, buf i < 64) :
    (∀ i < n, B64ToAscii buf n i =
      (",-0123456789ABCDEFGHIJKLMNOPQRSTUVWXYZabcdefghijklmnopqrstuvwxyz".toList.map
        Char.toNat).getD (buf i) 0) ∧
    (∀ i < n, ∀ j < n, buf i < buf j → B64ToAscii buf n i < B64ToAscii buf n j) ∧
    AsciiToB64InPlace (B64ToAscii buf n) n = buf ∧
    (AsciiToB64 out ((B64ToAscii buf n).slice 0 n)).slice 0 n = buf.slice 0 n := by
  refine ⟨?_, ?_, ?_, ?_⟩
  · intro i hi
    rw [B64ToAscii_apply, if_pos hi]
    exact (b64_conv_alphabet _ (h i hi)).1
  · intro i hi j hj hlt
    rw [B64ToAscii_apply, if_pos hi, B64ToAscii_apply, if_pos hj]
    exact b64_conv_strictMono _ _ hlt (h j hj)
  · funext j
    rw [AsciiToB64InPlace_apply, B64ToAscii_apply]
    by_cases hj : j < n
    · rw [if_pos hj, if_pos hj]
      exact (b64_conv_alphabet _ (h j hj)).2
    · rw [if_neg hj, if_neg hj]
  · apply Buffer.slice_congr
    intro i hi
    rw [Nat.zero_add, AsciiToB64_apply, Buffer.length_slice, if_pos hi,
      Buffer.getD_slice_zero _ _ _ hi, B64ToAscii_apply, if_pos hi]
    exact (b64_conv_alphabet _ (h i hi)).2

/-- C10, witness: the symbols 0, 11, 12, 37, 38, 63 (they become `,`, `9`, `A`, `Z`, `a`,
`z`). -/
theorem b64_translation_witness :
    (∀ i < 6, B64ToAscii (Buffer.ofList [0, 11, 12, 37, 38, 63]) 6 i =
      (",-0123456789ABCDEFGHIJKLMNOPQRSTUVWXYZabcdefghijklmnopqrstuvwxyz".toList.map
        Char.toNat).getD (Buffer.ofList [0, 11, 12, 37, 38, 63] i) 0) ∧
    (∀ i < 6, ∀ j < 6,
      Buffer.ofList [0, 11, 12, 37, 38, 63] i < Buffer.ofList [0, 11, 12, 37, 38, 63] j →
        B64ToAscii (Buffer.ofList [0, 11, 12, 37, 38, 63]) 6 i <
          B64ToAscii (Buffer.ofList [0, 11, 12, 37, 38, 63]) 6 j) ∧
    AsciiToB64InPlace (B64ToAscii (Buffer.ofList [0, 11, 12, 37, 38, 63]) 6) 6 =
      Buffer.ofList [0, 11, 12, 37, 38, 63] ∧
    (AsciiToB64 (Buffer.ofList []) ((B64ToAscii (Buffer.ofList [0, 11, 12, 37, 38, 63]) 6).slice
      0 6)).slice 0 6 = (Buffer.ofList [0, 11, 12, 37, 38, 63]).slice 0 6 :=
  b64_translation (Buffer.ofList [0, 11, 12, 37, 38, 63]) (Buffer.ofList []) 6 (by decide)

/-! ## The name codec: encoding -/

theorem Buffer.slice_eq_of_getD (buf : Buffer) (off n : Nat) (xs : List Nat)
    (hlen : xs.length = n) (h : ∀ i < n, buf (off + i) = xs.getD i 0) :
    buf.slice off n = xs := by
  apply List.ext_getElem
  · rw [Buffer.length_slice, hlen]
  · intro i h1 h2
    rw [Buffer.length_slice] at h1
    simp only [Buffer.slice, List.getElem_map, List.getElem_range]
    rw [h i h1, List.getD_eq_getElem _ _ h2]

theorem getD_map_of_lt (f : Nat → Nat) (xs : List Nat) (i : Nat) (h : i < xs.length) :
    (xs.map f).getD i 0 = f (xs.getD i 0) := by
  rw [List.getD_eq_getElem _ _ (by simpa using h), List.getD_eq_getElem _ _ h, List.getElem_map]

theorem Buffer.write_apply_of_lt (buf : Buffer) (xs : List Nat) (j : Nat) (h : j < xs.length) :
    buf.write 0 xs j = xs.getD j 0 := by
  simp [Buffer.write, h]

namespace B32BlockNameIO

variable {Key : Type}

theorem padding_eq (io : B32BlockNameIO Key) (hbs : 1 ≤ io._bs) (length : Nat) :
    io.padding length = io._bs - length % io._bs ∧ 1 ≤ io.padding length ∧
      io.padding length ≤ io._bs ∧
      length + io.padding length = (length / io._bs + 1) * io._bs := by
  have hm : length % io._bs < io._bs := Nat.mod_lt _ hbs
  have hp : io.padding length = io._bs - length % io._bs := by
    unfold padding
    rw [if_neg (by omega)]
  have hdm := Nat.div_add_mod length io._bs
  refine ⟨hp, by omega, by omega, ?_⟩
  rw [hp, Nat.add_mul, Nat.one_mul, Nat.mul_comm]
  omega

/-- The bytes `encodeName` hands to `MAC_16`: the name, then `padding` bytes of value
`(unsigned char)padding`. -/
theorem padded_slice (io : B32BlockNameIO Key) (name : List Nat) (out : Buffer) :
    (io.padded name out).slice 2 (name.length + io.padding name.length) =
      name ++ List.replicate (io.padding name.length) (io.padding name.length % 256) := by
  apply Buffer.slice_eq_of_getD
  · simp
  · intro i hi
    simp only [padded, Buffer.fill, Buffer.write]
    by_cases h1 : i < name.length
    · rw [if_neg (by omega), if_pos (by omega)]
      have e : 2 + i - 2 = i := by omega
      rw [e, List.getD_eq_getElem _ _ h1, List.getD_eq_getElem _ _ (by simp; omega),
        List.getElem_append_left h1]
    · rw [if_pos (by omega), List.getD_eq_getElem _ _ (by simp; omega),
        List.getElem_append_right (by omega)]
      simp

/-- The buffer of `encodeName` just before the radix conversion: the two checksum bytes, high
byte first, then the encrypted name and padding; and the chained IV is the one `MAC_16` left. -/
theorem preimage_eq (io : B32BlockNameIO Key) (name : List Nat) (iv : Option Nat)
    (out : Buffer) :
    (io.preimage name iv out).1.slice 0 (name.length + 2 + io.padding name.length) =
        [((io._cipher.MAC_16
            (name ++ List.replicate (io.padding name.length) (io.padding name.length % 256))
            io._key iv).1 >>> 8) &&& 0xff,
          (io._cipher.MAC_16
            (name ++ List.replicate (io.padding name.length) (io.padding name.length % 256))
            io._key iv).1 &&& 0xff] ++
          io._cipher.blockEncode
            (name ++ List.replicate (io.padding name.length) (io.padding name.length % 256))
            ((io._cipher.MAC_16
              (name ++ List.replicate (io.padding name.length) (io.padding name.length % 256))
              io._key iv).1 ^^^ io.tmpIV iv) io._key ∧
      (io.preimage name iv out).2 =
        (io._cipher.MAC_16
          (name ++ List.replicate (io.padding name.length) (io.padding name.length % 256))
          io._key iv).2 := by
  have hp := padded_slice io name out
  have hs : ∀ a b : Nat, (((io.padded name out).set 0 a).set 1 b).slice 2
      (name.length + io.padding name.length) =
      (io.padded name out).slice 2 (name.length + io.padding name.length) := by
    intro a b
    apply Buffer.slice_congr
    intro i _
    simp only [Buffer.set]
    rw [if_neg (by omega), if_neg (by omega)]
  simp only [preimage, hs, hp]
  refine ⟨?_, trivial⟩
  apply Buffer.slice_eq_of_getD
  · simp [io._cipher.blockEncode_length]
    omega
  · intro i hi
    simp only [Buffer.write, io._cipher.blockEncode_length, List.length_append,
      List.length_replicate]
    by_cases h0 : i = 0
    · subst h0
      simp [Buffer.set]
    · by_cases h1 : i = 1
      · subst h1
        simp [Buffer.set]
      · rw [if_pos (by omega)]
        have e : 0 + i - 2 = (i - 2) := by omega
        have e2 : i = (i - 2) + 1 + 1 := by omega
        rw [e]
        conv_rhs => rw [e2]
        simp

/-- The whole of `encodeName`: length, output buffer and chained IV. -/
theorem encodeName_eq (io : B32BlockNameIO Key) (name : List Nat) (iv : Option Nat)
    (out : Buffer) :
    io.encodeName name iv out =
      (B256ToB32Bytes (name.length + 2 + io.padding name.length),
        B32ToAscii
          ((io.preimage name iv out).1.write 0
            (bitGroups 8 5
              ((io.preimage name iv out).1.slice 0 (name.length + 2 + io.padding name.length))
              0 0))
          (B256ToB32Bytes (name.length + 2 + io.padding name.length)),
        (io.preimage name iv out).2) := by
  have e := inlineAux_true (io.preimage name iv out).1 8 5 (by decide) (by decide) _
    (name.length + 2 + io.padding name.length) 0 0 0 none (Nat.le_refl _) (Or.inl (by omega))
  simp only [Option.getD_none, Nat.cast_zero] at e
  simp only [encodeName, changeBase2Inline, e]

/-- The characters `encodeName` returns: the table applied to the radix-32 symbols of the
buffer. -/
theorem encodeName_slice (io : B32BlockNameIO Key) (name : List Nat) (iv : Option Nat)
    (out : Buffer) :
    (io.encodeName name iv out).2.1.slice 0 (io.encodeName name iv out).1 =
      (bitGroups 8 5
        ((io.preimage name iv out).1.slice 0 (name.length + 2 + io.padding name.length))
        0 0).map (fun b => binary_to_ascii_base32_table.getD b 0) := by
  rw [encodeName_eq]
  dsimp only
  have hl := bitGroups_length 8 5 (by decide)
    ((io.preimage name iv out).1.slice 0 (name.length + 2 + io.padding name.length)) 0 0
  rw [Buffer.length_slice] at hl
  have hl2 : (bitGroups 8 5
      ((io.preimage name iv out).1.slice 0 (name.length + 2 + io.padding name.length))
      0 0).length = B256ToB32Bytes (name.length + 2 + io.padding name.length) := by
    rw [hl]; unfold B256ToB32Bytes; omega
  apply Buffer.slice_eq_of_getD
  · rw [List.length_map, hl2]
  · intro i hi
    rw [Nat.zero_add, B32ToAscii_apply, if_pos hi,
      Buffer.write_apply_of_lt _ _ _ (by rw [hl2]; exact hi),
      getD_map_of_lt _ _ _ (by rw [hl2]; exact hi)]

end B32BlockNameIO

/-! ## Claims on encoding -/

namespace B32BlockNameIO

variable {Key : Type}

theorem create_ok (iface : Nat) (cipher : Cipher Key) (key : Key) (bs : Nat)
    (io : B32BlockNameIO Key) (hc : create iface cipher key bs = .ok io) :
    bs < 128 ∧ io = ⟨iface, bs, cipher, key⟩ := by
  unfold create at hc
  split at hc
  · rename_i h
    injection hc with hc
    exact ⟨h, hc.symm⟩
  · cases hc

/-- C5: for a codec built by the constructor with block size `bs >= 1` and a name of any
length `L`, the padding `p = bs - L mod bs` satisfies `1 <= p <= bs`, with `p = bs` exactly when
`bs` divides `L`; the bytes 2 .. 2+L+p-1 of the buffer before encryption are the name followed
by `p` bytes equal to `p`; and `L + p + 2 = 2 + k * bs` for some `k >= 1`. -/
theorem encodeName_padding_layout (iface : Nat) (cipher : Cipher Key) (key : Key) (bs : Nat)
    (io : B32BlockNameIO Key) (hc : create iface cipher key bs = .ok io) (hbs : 1 ≤ bs)
    (name : List Nat) (out : Buffer) :
    io.padding name.length = bs - name.length % bs ∧
      1 ≤ io.padding name.length ∧ io.padding name.length ≤ bs ∧
      (io.padding name.length = bs ↔ name.length % bs = 0) ∧
      (io.padded name out).slice 2 (name.length + io.padding name.length) =
        name ++ List.replicate (io.padding name.length) (io.padding name.length) ∧
      ∃ k, 1 ≤ k ∧ name.length + io.padding name.length + 2 = 2 + k * bs := by
  obtain ⟨h128, hio⟩ := create_ok iface cipher key bs io hc
  have hb : io._bs = bs := by rw [hio]
  obtain ⟨h1, h2, h3, h4⟩ := padding_eq io (by omega) name.length
  rw [hb] at h1 h3 h4
  have hm : name.length % bs < bs := Nat.mod_lt _ hbs
  refine ⟨h1, h2, h3, by omega, ?_, name.length / bs + 1, Nat.le_add_left 1 _,
    by rw [h4, Nat.add_comm]⟩
  rw [padded_slice, Nat.mod_eq_of_lt (by omega)]

/-- C5, witness: block size 16 and a name of 8 bytes give padding 8 and an 18-byte
preimage. -/
theorem encodeName_padding_layout_witness :
    (⟨3, 16, toyCipher, 5⟩ : B32BlockNameIO Nat).padding 8 = 8 ∧
      ((⟨3, 16, toyCipher, 5⟩ : B32BlockNameIO Nat).padded [116, 101, 115, 116, 46, 116, 120, 116]
          (Buffer.ofList [])).slice 2 16 =
        [116, 101, 115, 116, 46, 116, 120, 116, 8, 8, 8, 8, 8, 8, 8, 8] ∧
      ∃ k, 1 ≤ k ∧ 8 + 8 + 2 = 2 + k * 16 := by
  have h := encodeName_padding_layout 3 toyCipher 5 16 ⟨3, 16, toyCipher, 5⟩ rfl (by decide)
    [116, 101, 115, 116, 46, 116, 120, 116] (Buffer.ofList [])
  have hp : (⟨3, 16, toyCipher, 5⟩ : B32BlockNameIO Nat).padding 8 = 8 := by
    decide
  simp only [List.length_cons, List.length_nil] at h
  rw [hp] at h
  exact ⟨hp, h.2.2.2.2.1, h.2.2.2.2.2⟩

/-- C6: for a codec built by the constructor with block size `bs >= 1`, every name, key and
chained IV: with `mac = MAC_16(name ++ pad bytes, key, iv)`, `encodeName` returns `B32ToAscii`
of the radix 256 to 32 conversion of `[mac >> 8 & 0xff, mac & 0xff] ++ blockEncode(name ++ pad
bytes, seed, key)`, where `seed = mac XOR iv` when an IV is given and the interface version is at
least 3, and `seed = mac` otherwise; the chained IV is the one `MAC_16` leaves. -/
theorem encodeName_wire_layout (iface : Nat) (cipher : Cipher Key) (key : Key) (bs : Nat)
    (io : B32BlockNameIO Key) (hc : create iface cipher key bs = .ok io) (hbs : 1 ≤ bs)
    (name : List Nat) (iv : Option Nat) (out : Buffer) :
    let pad := List.replicate (io.padding name.length) (io.padding name.length)
    let mac := (cipher.MAC_16 (name ++ pad) key iv).1
    let seed := match iv with
      | some v => if 3 ≤ iface then mac ^^^ v else mac
      | none => mac
    let pre := [(mac >>> 8) &&& 0xff, mac &&& 0xff] ++ cipher.blockEncode (name ++ pad) seed key
    (io.encodeName name iv out).1 = B256ToB32Bytes pre.length ∧
      (io.encodeName name iv out).2.1.slice 0 (io.encodeName name iv out).1 =
        (B32ToAscii (Buffer.ofList (changeBase2 pre 8 (B256ToB32Bytes pre.length) 5))
          (B256ToB32Bytes pre.length)).slice 0 (B256ToB32Bytes pre.length) ∧
      (io.encodeName name iv out).2.2 = (cipher.MAC_16 (name ++ pad) key iv).2 := by
  intro pad mac seed pre
  obtain ⟨h128, hio⟩ := create_ok iface cipher key bs io hc
  have hb : io._bs = bs := by rw [hio]
  have hci : io._cipher = cipher := by rw [hio]
  have hk : io._key = key := by rw [hio]
  have hif : io._interface = iface := by rw [hio]
  obtain ⟨_, _, h3, _⟩ := padding_eq io (by omega) name.length
  have hmod : io.padding name.length % 256 = io.padding name.length :=
    Nat.mod_eq_of_lt (by omega)
  have hseed : mac ^^^ io.tmpIV iv = seed := by
    unfold tmpIV
    cases iv with
    | none => simp [seed]
    | some v =>
      simp only [seed, hif]
      by_cases hv : 3 ≤ iface
      · simp [hv]
      · simp [hv]
  obtain ⟨hp1, hp2⟩ := preimage_eq io name iv out
  rw [hmod, hci, hk] at hp1 hp2
  rw [hseed] at hp1
  have hprelen : pre.length = name.length + 2 + io.padding name.length := by
    simp [pre, pad, cipher.blockEncode_length]
    omega
  have hcb : changeBase2 pre 8 (B256ToB32Bytes pre.length) 5 = bitGroups 8 5 pre 0 0 := by
    apply changeBase2_eq_bitGroups 8 5 _ (by decide)
    rw [bitGroups_length 8 5 (by decide)]
    unfold B256ToB32Bytes
    omega
  have hglen : (bitGroups 8 5 pre 0 0).length = B256ToB32Bytes pre.length := by
    rw [bitGroups_length 8 5 (by decide)]
    unfold B256ToB32Bytes
    omega
  refine ⟨?_, ?_, ?_⟩
  · rw [encodeName_eq, hprelen]
  · rw [encodeName_slice, hp1, hcb]
    symm
    apply Buffer.slice_eq_of_getD
    · rw [List.length_map, hglen]
    · intro i hi
      rw [Nat.zero_add, B32ToAscii_apply, if_pos hi, getD_map_of_lt _ _ _ (by rw [hglen]; exact hi)]
      rfl
  · rw [encodeName_eq]
    exact hp2

/-- C6, witness: the toy codec of block size 8 on a three-byte name with a chained IV. -/
theorem encodeName_wire_layout_witness :
    (toyCodec.encodeName [1, 2, 3] (some 7) (Buffer.ofList [])).2.2 =
      (toyCipher.MAC_16 ([1, 2, 3] ++ List.replicate (toyCodec.padding 3) (toyCodec.padding 3))
        5 (some 7)).2 :=
  (encodeName_wire_layout 3 toyCipher 5 8 toyCodec rfl (by decide) [1, 2, 3] (some 7)
    (Buffer.ofList [])).2.2

end B32BlockNameIO

/-! ## Claims on the alphabet of encoded names and on sizes -/

namespace B32BlockNameIO

variable {Key : Type}

/-- C8: `B32ToAscii` maps every byte value `v` to the character of index `v mod 32` of
`abcdefghijklmnopqrstuvwxyz234567`, so every character it produces, and every character of
every name `encodeName` returns, lies in `a-z` or `2-7`. -/
theorem B32ToAscii_alphabet (buf : Buffer) (n : Nat) (hbuf : ∀ i < n, buf i < 256)
    (io : B32BlockNameIO Key) (name : List Nat) (iv : Option Nat) (out : Buffer) :
    (∀ i < n,
      B32ToAscii buf n i =
          ("abcdefghijklmnopqrstuvwxyz234567".toList.map Char.toNat).getD (buf i % 32) 0 ∧
        (('a'.toNat ≤ B32ToAscii buf n i ∧ B32ToAscii buf n i ≤ 'z'.toNat) ∨
          ('2'.toNat ≤ B32ToAscii buf n i ∧ B32ToAscii buf n i ≤ '7'.toNat))) ∧
    ∀ i < (io.encodeName name iv out).1,
      ('a'.toNat ≤ (io.encodeName name iv out).2.1 i ∧
          (io.encodeName name iv out).2.1 i ≤ 'z'.toNat) ∨
        ('2'.toNat ≤ (io.encodeName name iv out).2.1 i ∧
          (io.encodeName name iv out).2.1 i ≤ '7'.toNat) := by
  constructor
  · intro i hi
    rw [B32ToAscii_apply, if_pos hi]
    exact b32_table_alphabet _ (hbuf i hi)
  · rw [encodeName_eq]
    dsimp only
    intro i hi
    have hl := bitGroups_length 8 5 (by decide)
      ((io.preimage name iv out).1.slice 0 (name.length + 2 + io.padding name.length)) 0 0
    rw [Buffer.length_slice] at hl
    have hi2 : i < (bitGroups 8 5
        ((io.preimage name iv out).1.slice 0 (name.length + 2 + io.padding name.length))
        0 0).length := by
      rw [hl]; unfold B256ToB32Bytes at hi; omega
    rw [B32ToAscii_apply, if_pos hi, Buffer.write_apply_of_lt _ _ _ hi2,
      List.getD_eq_getElem _ _ hi2]
    exact (b32_table_alphabet _
      (bitGroups_lt 8 5 (by decide) _ 0 0 _ (List.getElem_mem hi2)).2).2

/-- C8, witness: the byte 255 becomes `7`, and the first character of the toy codec's output
for a three-byte name lies in the alphabet. -/
theorem B32ToAscii_alphabet_witness :
    B32ToAscii (Buffer.ofList [0, 31, 32, 255]) 4 3 =
        ("abcdefghijklmnopqrstuvwxyz234567".toList.map Char.toNat).getD (255 % 32) 0 ∧
      (('a'.toNat ≤ (toyCodec.encodeName [1, 2, 3] none (Buffer.ofList [])).2.1 0 ∧
          (toyCodec.encodeName [1, 2, 3] none (Buffer.ofList [])).2.1 0 ≤ 'z'.toNat) ∨
        ('2'.toNat ≤ (toyCodec.encodeName [1, 2, 3] none (Buffer.ofList [])).2.1 0 ∧
          (toyCodec.encodeName [1, 2, 3] none (Buffer.ofList [])).2.1 0 ≤ '7'.toNat)) :=
  ⟨((B32ToAscii_alphabet (Buffer.ofList [0, 31, 32, 255]) 4 (by decide) toyCodec [1, 2, 3] none
      (Buffer.ofList [])).1 3 (by decide)).1,
    (B32ToAscii_alphabet (Buffer.ofList [0, 31, 32, 255]) 4 (by decide) toyCodec [1, 2, 3] none
      (Buffer.ofList [])).2 0 (by rw [encodeName_eq]; decide)⟩

/-- What a successful `decodeName` returns: its length is the decoded stream length less the
padding byte, so at most `B32ToB256Bytes(length) - 2`, and the size check has passed. -/
theorem decodeName_ok_bound (io : B32BlockNameIO Key) (enc : List Nat) (iv iv1 : Option Nat)
    (res : List Nat × Int) (h : io.decodeName enc iv = (.ok res, iv1)) :
    res.2 ≤ (B32ToB256Bytes enc.length : Int) - 2 ∧ 0 ≤ res.2 ∧
      (io._bs : Int) ≤ (B32ToB256Bytes enc.length : Int) - 2 := by
  unfold decodeName at h
  simp only at h
  split at h
  · simp at h
  · rename_i h1
    split at h
    · simp at h
    · rename_i h2
      split at h
      · simp at h
      · simp only [Prod.mk.injEq, Except.ok.injEq] at h
        obtain ⟨hres, _⟩ := h
        rw [← hres]
        dsimp only
        omega

end B32BlockNameIO

/-! ## The name codec: decoding -/

theorem Buffer.slice_write_take (buf : Buffer) (off : Nat) (xs : List Nat) (k : Nat)
    (hk : k ≤ xs.length) : (buf.write off xs).slice off k = xs.take k := by
  apply Buffer.slice_eq_of_getD
  · rw [List.length_take]; omega
  · intro i hi
    simp only [Buffer.write]
    rw [if_pos (by omega)]
    have e : off + i - off = i := by omega
    rw [e, List.getD_eq_getElem _ _ (by omega),
      List.getD_eq_getElem _ _ (by rw [List.length_take]; omega), List.getElem_take]

namespace B32BlockNameIO

variable {Key : Type}

/-- The rest of `decodeName` once the scratch buffer is known: if the radix-decoded buffer
starts with the two bytes of `mac` and its next `body.length` bytes decrypt to `body`, whose last
byte is a padding `p` within the block size, the outcome is decided by the MAC of `body`. -/
theorem decodeName_of_buffer (io : B32BlockNameIO Key) (enc : List Nat) (iv : Option Nat)
    (body : List Nat) (mac p : Nat)
    (h1 : B32ToB256Bytes enc.length = body.length + 2)
    (hbs : io._bs ≤ body.length) (hbody : 1 ≤ body.length)
    (hmac : ((changeBase2Inline (AsciiToB32 (fun _ => 0) enc) enc.length 5 8 false 0 % 256)
        <<< 8) |||
      (changeBase2Inline (AsciiToB32 (fun _ => 0) enc) enc.length 5 8 false 1 % 256) = mac)
    (hdec : io._cipher.blockDecode
      ((changeBase2Inline (AsciiToB32 (fun _ => 0) enc) enc.length 5 8 false).slice 2
        body.length) (mac ^^^ io.tmpIV iv) io._key = body)
    (hp : body.getD (body.length - 1) 0 % 256 = p) (hp1 : p ≤ io._bs) :
    io.decodeName enc iv =
      if (io._cipher.MAC_16 body io._key iv).1 ≠ mac then
        (.error "checksum mismatch in filename decode", (io._cipher.MAC_16 body io._key iv).2)
      else
        (.ok (body.take (body.length - p), ((body.length - p : Nat) : Int)),
          (io._cipher.MAC_16 body io._key iv).2) := by
  have e1 : ((B32ToB256Bytes enc.length : Nat) : Int) - 2 = (body.length : Int) := by
    rw [h1]; push_cast; omega
  have e2 : (2 + (body.length : Int) - 1).toNat = body.length + 1 := by omega
  have e3 : ∀ t : Buffer, (t.write 2 body) (body.length + 1) =
      body.getD (body.length - 1) 0 := by
    intro t
    simp only [Buffer.write]
    rw [if_pos (by omega)]
    congr 1
  have e4 : ∀ t : Buffer, (t.write 2 body).slice 2 body.length = body := by
    intro t
    exact Buffer.slice_write_self t 2 body
  have e7 : ((body.getD (body.length - 1) 0 : Nat) : Int) % 256 = (p : Int) := by omega
  unfold decodeName
  simp only [e1, Int.toNat_ofNat, hmac, hdec, e2, e3, e4, e7]
  rw [if_neg (by omega), if_neg (by omega)]
  have e5 : ((body.length : Int) - (p : Int)).toNat = body.length - p := by omega
  have e6 : ((body.length : Int) - (p : Int)) = ((body.length - p : Nat) : Int) := by omega
  rw [e5, Buffer.slice_write_take _ 2 body _ (by omega), e6]

end B32BlockNameIO

theorem mac_reassemble (mac : Nat) (h : mac < 65536) :
    ((((mac >>> 8) &&& 0xff) % 256) <<< 8) ||| ((mac &&& 0xff) % 256) = mac := by
  have e : (0xff : Nat) = 2 ^ 8 - 1 := by norm_num
  rw [e, Nat.and_pow_two_sub_one_eq_mod, Nat.and_pow_two_sub_one_eq_mod,
    Nat.shiftRight_eq_div_pow, Nat.shiftLeft_eq, Nat.mul_comm,
    ← Nat.mul_add_lt_is_or (Nat.mod_lt _ (by norm_num))]
  norm_num
  omega

theorem checksum_bytes_lt (mac : Nat) : (mac >>> 8) &&& 0xff < 256 ∧ mac &&& 0xff < 256 := by
  have e : (0xff : Nat) = 2 ^ 8 - 1 := by norm_num
  rw [e, Nat.and_pow_two_sub_one_eq_mod, Nat.and_pow_two_sub_one_eq_mod]
  exact ⟨Nat.mod_lt _ (by norm_num), Nat.mod_lt _ (by norm_num)⟩

/-- Radix-decoding in place what the encoder produced: the scratch buffer of `decodeName`
starts with the bytes `pre` that were converted. -/
theorem scratch_buffer (pre : List Nat) (hpre : ∀ b ∈ pre, b < 256) (hlen : 1 ≤ pre.length)
    (j : Nat) (hj : j < pre.length) :
    changeBase2Inline
        (AsciiToB32 (fun _ => 0)
          ((bitGroups 8 5 pre 0 0).map fun b => binary_to_ascii_base32_table.getD b 0))
        ((bitGroups 8 5 pre 0 0).map fun b => binary_to_ascii_base32_table.getD b 0).length
        5 8 false j = pre.getD j 0 := by
  have hm : (bitGroups 8 5 pre 0 0).length = (pre.length * 8 + 4) / 5 := by
    rw [bitGroups_length 8 5 (by decide)]; omega
  have hsym : (AsciiToB32 (fun _ => 0)
      ((bitGroups 8 5 pre 0 0).map fun b => binary_to_ascii_base32_table.getD b 0)).slice 0
      ((pre.length * 8 + 4) / 5) = bitGroups 8 5 pre 0 0 := by
    apply Buffer.slice_eq_of_getD _ _ _ _ hm
    intro i hi
    rw [Nat.zero_add, AsciiToB32_apply, List.length_map, hm, if_pos hi,
      getD_map_of_lt _ _ _ (by rw [hm]; exact hi)]
    apply b32_table_decode_encode
    have hlt := (bitGroups_lt 8 5 (by decide) pre 0 0 _
      (List.getElem_mem (by rw [hm]; exact hi))).1
    rw [List.getD_eq_getElem _ _ (by rw [hm]; exact hi)]
    norm_num at hlt
    exact hlt
  obtain ⟨k, hk, hrec⟩ := inlineAux_false
    (AsciiToB32 (fun _ => 0)
      ((bitGroups 8 5 pre 0 0).map fun b => binary_to_ascii_base32_table.getD b 0))
    5 8 (by decide) (by decide) _ ((pre.length * 8 + 4) / 5) 0 0 0 none (Nat.le_refl _)
    (by omega) (by decide)
  simp only [Option.getD_none, Nat.cast_zero, hsym] at hrec
  have hl2 : (bitGroups 5 8 (bitGroups 8 5 pre 0 0) 0 0).length =
      ((pre.length * 8 + 4) / 5 * 5 + 7) / 8 := by
    rw [bitGroups_length 5 8 (by decide), hm]; omega
  have hjk : j < k := by omega
  have hjl : j < (bitGroups 5 8 (bitGroups 8 5 pre 0 0) 0 0).length := by
    rw [hl2]; omega
  have hjt : j < ((bitGroups 5 8 (bitGroups 8 5 pre 0 0) 0 0).take k).length := by
    rw [List.length_take]; omega
  rw [List.length_map, hm]
  unfold changeBase2Inline
  rw [hrec, Buffer.write_apply_of_lt _ _ _ hjt, List.getD_eq_getElem _ _ hjt, List.getElem_take,
    ← List.getD_eq_getElem _ 0 hjl, bitGroups_5_8_8_5_getD pre hpre j]

namespace B32BlockNameIO

variable {Key : Type}

/-- Decoding the printable form of `[mac >> 8 & 0xff, mac & 0xff] ++ e`: when `e` decrypts
to `body`, whose last byte is a padding `p` within the block size, the outcome is decided by
the MAC of `body`. -/
theorem decodeName_of_preimage (io : B32BlockNameIO Key) (iv : Option Nat) (mac : Nat)
    (e body : List Nat) (p : Nat) (hmac : mac < 65536) (he : ∀ b ∈ e, b < 256)
    (hlen : e.length = body.length) (hbs : io._bs ≤ body.length) (hbody : 1 ≤ body.length)
    (hdec : io._cipher.blockDecode e (mac ^^^ io.tmpIV iv) io._key = body)
    (hp : body.getD (body.length - 1) 0 % 256 = p) (hp1 : p ≤ io._bs) :
    io.decodeName
        ((bitGroups 8 5 ([(mac >>> 8) &&& 0xff, mac &&& 0xff] ++ e) 0 0).map
          fun b => binary_to_ascii_base32_table.getD b 0) iv =
      if (io._cipher.MAC_16 body io._key iv).1 ≠ mac then
        (.error "checksum mismatch in filename decode", (io._cipher.MAC_16 body io._key iv).2)
      else
        (.ok (body.take (body.length - p), ((body.length - p : Nat) : Int)),
          (io._cipher.MAC_16 body io._key iv).2) := by
  have hprelen : ([(mac >>> 8) &&& 0xff, mac &&& 0xff] ++ e).length = body.length + 2 := by
    simp [hlen]
  have hprebytes : ∀ b ∈ [(mac >>> 8) &&& 0xff, mac &&& 0xff] ++ e, b < 256 := by
    intro b hb
    rw [List.mem_append] at hb
    rcases hb with hb | hb
    · simp only [List.mem_cons, List.mem_singleton, List.not_mem_nil, or_false] at hb
      rcases hb with rfl | rfl
      · exact (checksum_bytes_lt _).1
      · exact (checksum_bytes_lt _).2
    · exact he b hb
  have hsc := fun j hj => scratch_buffer _ hprebytes (by rw [hprelen]; omega) j hj
  rw [hprelen] at hsc
  apply decodeName_of_buffer io _ iv body mac p _ hbs hbody _ _ hp hp1
  · rw [List.length_map, bitGroups_length 8 5 (by decide), hprelen]
    unfold B32ToB256Bytes
    omega
  · rw [hsc 0 (by omega), hsc 1 (by omega)]
    simp only [List.cons_append, List.getD_cons_zero, List.getD_cons_succ]
    exact mac_reassemble _ hmac
  · have hsl : (changeBase2Inline
        (AsciiToB32 (fun _ => 0)
          ((bitGroups 8 5 ([(mac >>> 8) &&& 0xff, mac &&& 0xff] ++ e) 0 0).map
            fun b => binary_to_ascii_base32_table.getD b 0))
        ((bitGroups 8 5 ([(mac >>> 8) &&& 0xff, mac &&& 0xff] ++ e) 0 0).map
          fun b => binary_to_ascii_base32_table.getD b 0).length
        5 8 false).slice 2 body.length = e := by
      apply Buffer.slice_eq_of_getD _ _ _ _ hlen
      intro i hi
      rw [hsc (2 + i) (by omega)]
      have e2 : 2 + i = i + 1 + 1 := by omega
      rw [e2]
      simp only [List.cons_append, List.getD_cons_succ, List.nil_append]
    rw [hsl]
    exact hdec

/-- Decoding what `encodeName` returned, with the same key and the same chained IV: when the
cipher decrypts what it encrypted and its MAC fits 16 bits, `decodeName` succeeds with the
name and its length, and leaves the chained IV that `encodeName` left. -/
theorem decode_encode (io : B32BlockNameIO Key) (name : List Nat) (iv : Option Nat)
    (out : Buffer) (hbs : 1 ≤ io._bs ∧ io._bs < 128) (hname : ∀ b ∈ name, b < 256)
    (hblock : ∀ buf seed key, io._bs ∣ buf.length → (∀ b ∈ buf, b < 256) →
      io._cipher.blockDecode (io._cipher.blockEncode buf seed key) seed key = buf)
    (hmac : ∀ buf key iv, (io._cipher.MAC_16 buf key iv).1 < 2 ^ 16) :
    io.decodeName
        ((io.encodeName name iv out).2.1.slice 0 (io.encodeName name iv out).1) iv =
      (.ok (name, (name.length : Int)), (io.encodeName name iv out).2.2) := by
  obtain ⟨hp0, hp1, hp2, hp3⟩ := padding_eq io hbs.1 name.length
  obtain ⟨hpre1, hpre2⟩ := preimage_eq io name iv out
  have hmod : io.padding name.length % 256 = io.padding name.length :=
    Nat.mod_eq_of_lt (by omega)
  rw [hmod] at hpre1 hpre2
  have hbody : ∀ b ∈ name ++ List.replicate (io.padding name.length) (io.padding name.length),
      b < 256 := by
    intro b hb
    rw [List.mem_append] at hb
    rcases hb with hb | hb
    · exact hname b hb
    · rw [List.eq_of_mem_replicate hb]; omega
  have hbodylen : (name ++ List.replicate (io.padding name.length)
      (io.padding name.length)).length = name.length + io.padding name.length := by
    simp
  have hm16 := hmac (name ++ List.replicate (io.padding name.length) (io.padding name.length))
    io._key iv
  rw [encodeName_slice, hpre1, encodeName_eq]
  dsimp only
  rw [hpre2, decodeName_of_preimage io iv _ _
    (name ++ List.replicate (io.padding name.length) (io.padding name.length))
    (io.padding name.length) (by norm_num at hm16; exact hm16)
    (io._cipher.blockEncode_bytes _ _ _) (io._cipher.blockEncode_length _ _ _)]
  · rw [if_neg (by simp), hbodylen, Nat.add_sub_cancel, List.take_left']
    rfl
  · rw [hbodylen]
    have := Nat.mod_le name.length io._bs
    omega
  · rw [hbodylen]; omega
  · apply hblock _ _ _ _ hbody
    rw [hbodylen, hp3]
    exact Dvd.intro_left _ rfl
  · rw [hbodylen, List.getD_eq_getElem _ _ (by rw [hbodylen]; omega),
      List.getElem_append_right (by omega)]
    simp only [List.getElem_replicate]
    exact hmod
  · exact hp2

end B32BlockNameIO

/-! ## Claims on the round trip and on sizes -/

theorem toyCipher_inverse (buf : List Nat) (seed key : Nat) (hbuf : ∀ b ∈ buf, b < 256) :
    toyCipher.blockDecode (toyCipher.blockEncode buf seed key) seed key = buf := by
  simp only [toyCipher, List.map_map]
  conv_rhs => rw [← List.map_id buf]
  apply List.map_congr_left
  intro b hb
  have := hbuf b hb
  simp only [Function.comp, id]
  omega

theorem toyCipher_mac_lt (buf : List Nat) (key : Nat) (iv : Option Nat) :
    (toyCipher.MAC_16 buf key iv).1 < 2 ^ 16 := by
  simp only [toyCipher]
  exact Nat.mod_lt _ (by norm_num)

namespace B32BlockNameIO

variable {Key : Type}

/-- C1: for every block size `1 <= bs < 128`, every interface version (2 and 3 among them),
every name of bytes (of length 0..250 among them), every initial chained IV or none, and every
cipher whose `blockDecode` undoes `blockEncode` under the same seed and key on buffers of a
multiple of `bs` bytes and whose `MAC_16` is below `2^16`: `decodeName` applied to what
`encodeName` returned, with the same initial IV, succeeds, returns the name and its length, and
leaves the chained IV that `encodeName` left. -/
theorem decodeName_encodeName (io : B32BlockNameIO Key) (name : List Nat) (iv : Option Nat)
    (out : Buffer) (hbs : 1 ≤ io._bs ∧ io._bs < 128) (hname : ∀ b ∈ name, b < 256)
    (hblock : ∀ buf seed key, io._bs ∣ buf.length → (∀ b ∈ buf, b < 256) →
      io._cipher.blockDecode (io._cipher.blockEncode buf seed key) seed key = buf)
    (hmac : ∀ buf key iv, (io._cipher.MAC_16 buf key iv).1 < 2 ^ 16) :
    io.decodeName
        ((io.encodeName name iv out).2.1.slice 0 (io.encodeName name iv out).1) iv =
      (.ok (name, (name.length : Int)), (io.encodeName name iv out).2.2) :=
  decode_encode io name iv out hbs hname hblock hmac

/-- C1, witness: the empty name with block size 8 comes back as the empty name. -/
theorem decodeName_encodeName_witness :
    toyCodec.decodeName
        ((toyCodec.encodeName [] (some 7) (Buffer.ofList [])).2.1.slice 0
          (toyCodec.encodeName [] (some 7) (Buffer.ofList [])).1) (some 7) =
      (.ok ([], 0), (toyCodec.encodeName [] (some 7) (Buffer.ofList [])).2.2) :=
  decodeName_encodeName toyCodec [] (some 7) (Buffer.ofList []) (by decide) (by simp)
    (fun buf seed key _ hbuf => toyCipher_inverse buf seed key hbuf)
    (fun buf key iv => toyCipher_mac_lt buf key iv)

/-- C7: with `B256ToB32Bytes(n) = ceil(8n/5)` and `B32ToB256Bytes(n) = floor(5n/8)`, for every
block size `bs >= 1` and name length `L` the length `encodeName` returns,
`ceil((L + padding + 2) * 8 / 5)`, is at most
`maxEncodedNameLen(L) = ceil((((L + bs) div bs) * bs + 2) * 8 / 5)`; and whenever `decodeName`
succeeds on an encoded name of `n` bytes, the length it returns is at most
`maxDecodedNameLen(n) = floor(5n/8) - 2`. -/
theorem sizing_never_underestimates (io : B32BlockNameIO Key) (hbs : 1 ≤ io._bs)
    (name : List Nat) (iv : Option Nat) (out : Buffer)
    (enc : List Nat) (iv2 iv3 : Option Nat) (res : List Nat × Int) :
    ((io.encodeName name iv out).1 =
        ((name.length + io.padding name.length + 2) * 8 + 4) / 5 ∧
      io.maxEncodedNameLen name.length =
        (((name.length + io._bs) / io._bs * io._bs + 2) * 8 + 4) / 5 ∧
      (io.encodeName name iv out).1 ≤ io.maxEncodedNameLen name.length) ∧
    (io.decodeName enc iv2 = (.ok res, iv3) →
      io.maxDecodedNameLen enc.length = ((enc.length * 5 / 8 : Nat) : Int) - 2 ∧
        res.2 ≤ io.maxDecodedNameLen enc.length) := by
  obtain ⟨_, _, _, hp3⟩ := padding_eq io hbs name.length
  have h1 : (io.encodeName name iv out).1 =
      ((name.length + io.padding name.length + 2) * 8 + 4) / 5 := by
    rw [encodeName_eq]
    simp only [B256ToB32Bytes]
    congr 2
    omega
  have h2 : io.maxEncodedNameLen name.length =
      (((name.length + io._bs) / io._bs * io._bs + 2) * 8 + 4) / 5 := rfl
  refine ⟨⟨h1, h2, ?_⟩, fun h => ⟨rfl, ?_⟩⟩
  · rw [h1, h2, Nat.add_div_right _ hbs, hp3]
  · exact (decodeName_ok_bound io enc iv2 iv3 res h).1

/-- C7, witness: the toy codec on a three-byte name, encoded and decoded again. -/
theorem sizing_never_underestimates_witness :
    (toyCodec.encodeName [1, 2, 3] none (Buffer.ofList [])).1 ≤ toyCodec.maxEncodedNameLen 3 ∧
      (3 : Int) ≤ toyCodec.maxDecodedNameLen
        ((toyCodec.encodeName [1, 2, 3] none (Buffer.ofList [])).2.1.slice 0
          (toyCodec.encodeName [1, 2, 3] none (Buffer.ofList [])).1).length :=
  ⟨(sizing_never_underestimates toyCodec (by decide) [1, 2, 3] none (Buffer.ofList [])
      [] none none ([], 0)).1.2.2,
    ((sizing_never_underestimates toyCodec (by decide) [1, 2, 3] none (Buffer.ofList [])
      ((toyCodec.encodeName [1, 2, 3] none (Buffer.ofList [])).2.1.slice 0
        (toyCodec.encodeName [1, 2, 3] none (Buffer.ofList [])).1)
      none (toyCodec.encodeName [1, 2, 3] none (Buffer.ofList [])).2.2 ([1, 2, 3], 3)).2
      (decode_encode toyCodec [1, 2, 3] none (Buffer.ofList []) (by decide) (by decide)
        (fun buf seed key _ hbuf => toyCipher_inverse buf seed key hbuf)
        (fun buf key iv => toyCipher_mac_lt buf key iv))).2⟩

end B32BlockNameIO

/-! ## Claims on garbage input to the decode tables -/

set_option maxRecDepth 100000 in
theorem a2b32_table_garbage : ∀ c < 256,
    c < ascii_to_binary_base32_table.length ∧
      ascii_to_binary_base32_table.getD c 0 < 32 ∧
      (¬ (('A'.toNat ≤ c ∧ c ≤ 'Z'.toNat) ∨ ('a'.toNat ≤ c ∧ c ≤ 'z'.toNat) ∨
          ('2'.toNat ≤ c ∧ c ≤ '7'.toNat)) →
        ascii_to_binary_base32_table.getD c 0 = 0) := by
  decide

/-- C11: for every input of bytes, `AsciiToB32` reads its table at an index below the table
length (256), every symbol it stores is below 32, and a byte that is not one of `A-Z`, `a-z`,
`2-7` becomes 0; this holds for the in-place overload as well. -/
theorem AsciiToB32_garbage (out : Buffer) (inp : List Nat) (hinp : ∀ c ∈ inp, c < 256)
    (i : Nat) (hi : i < inp.length) :
    inp.getD i 0 < ascii_to_binary_base32_table.length ∧
      AsciiToB32 out inp i < 32 ∧
      AsciiToB32InPlace (Buffer.ofList inp) inp.length i = AsciiToB32 out inp i ∧
      (¬ (('A'.toNat ≤ inp.getD i 0 ∧ inp.getD i 0 ≤ 'Z'.toNat) ∨
          ('a'.toNat ≤ inp.getD i 0 ∧ inp.getD i 0 ≤ 'z'.toNat) ∨
          ('2'.toNat ≤ inp.getD i 0 ∧ inp.getD i 0 ≤ '7'.toNat)) →
        AsciiToB32 out inp i = 0) := by
  have hc : inp.getD i 0 < 256 := by
    rw [List.getD_eq_getElem _ _ hi]
    exact hinp _ (List.getElem_mem hi)
  obtain ⟨h1, h2, h3⟩ := a2b32_table_garbage _ hc
  rw [AsciiToB32_apply, if_pos hi, AsciiToB32InPlace_apply, if_pos hi]
  exact ⟨h1, h2, rfl, h3⟩

/-- C11, witness: the bytes `!`, `A`, `1`, `8`, 255 and `z`. -/
theorem AsciiToB32_garbage_witness :
    AsciiToB32 (Buffer.ofList []) [33, 65, 49, 56, 255, 122] 4 < 32 ∧
      AsciiToB32 (Buffer.ofList []) [33, 65, 49, 56, 255, 122] 4 = 0 :=
  ⟨(AsciiToB32_garbage (Buffer.ofList []) [33, 65, 49, 56, 255, 122] (by decide) 4
      (by decide)).2.1,
    (AsciiToB32_garbage (Buffer.ofList []) [33, 65, 49, 56, 255, 122] (by decide) 4
      (by decide)).2.2.2 (by decide)⟩

set_option maxRecDepth 100000 in
theorem a2b64_conv_garbage : ∀ c < 256,
    (c < 'A'.toNat → c < Ascii2B64Table.length) ∧
      AsciiToB64.conv c < 256 ∧
      (¬ (c = ','.toNat ∨ c = '-'.toNat ∨ ('0'.toNat ≤ c ∧ c ≤ '9'.toNat) ∨
          ('A'.toNat ≤ c ∧ c ≤ 'Z'.toNat) ∨ ('a'.toNat ≤ c ∧ c ≤ 'z'.toNat)) →
        AsciiToB64.conv c =
          if c < 'A'.toNat then 240 else if c < 'a'.toNat then c - 53 else c - 59) := by
  decide

/-- C12, as the code has it: for every input of bytes, `AsciiToB64` reads its table only for a
byte below `A`, at an index below the table length, and stores a byte; but a byte outside the
alphabet `,-0-9A-Za-z` does not become 0: it becomes 240 when it is below `A`, `c - 53` (38..43)
between `Z` and `a`, and `c - 59` (64..196) above `z`. -/
theorem AsciiToB64_garbage (out : Buffer) (inp : List Nat) (hinp : ∀ c ∈ inp, c < 256)
    (i : Nat) (hi : i < inp.length) :
    (inp.getD i 0 < 'A'.toNat → inp.getD i 0 < Ascii2B64Table.length) ∧
      AsciiToB64 out inp i < 256 ∧
      (¬ (inp.getD i 0 = ','.toNat ∨ inp.getD i 0 = '-'.toNat ∨
          ('0'.toNat ≤ inp.getD i 0 ∧ inp.getD i 0 ≤ '9'.toNat) ∨
          ('A'.toNat ≤ inp.getD i 0 ∧ inp.getD i 0 ≤ 'Z'.toNat) ∨
          ('a'.toNat ≤ inp.getD i 0 ∧ inp.getD i 0 ≤ 'z'.toNat)) →
        AsciiToB64 out inp i =
          if inp.getD i 0 < 'A'.toNat then 240
          else if inp.getD i 0 < 'a'.toNat then inp.getD i 0 - 53 else inp.getD i 0 - 59) := by
  have hc : inp.getD i 0 < 256 := by
    rw [List.getD_eq_getElem _ _ hi]
    exact hinp _ (List.getElem_mem hi)
  obtain ⟨h1, h2, h3⟩ := a2b64_conv_garbage _ hc
  rw [AsciiToB64_apply, if_pos hi]
  exact ⟨h1, h2, h3⟩

/-- C12, witness: the bytes blank, `[` and 255 become 240, 38 and 196. -/
theorem AsciiToB64_garbage_witness :
    AsciiToB64 (Buffer.ofList []) [32, 91, 255] 2 =
      if [32, 91, 255].getD 2 0 < 'A'.toNat then 240
      else if [32, 91, 255].getD 2 0 < 'a'.toNat then [32, 91, 255].getD 2 0 - 53
      else [32, 91, 255].getD 2 0 - 59 :=
  (AsciiToB64_garbage (Buffer.ofList []) [32, 91, 255] (by decide) 2 (by decide)).2.2
    (by decide)

/-- C12, counterexample: a blank is not a character of the alphabet, and `AsciiToB64` maps it
to 240, which is neither 0 nor a radix-64 symbol. -/
theorem AsciiToB64_blank :
    ¬ (32 = ','.toNat ∨ 32 = '-'.toNat ∨ ('0'.toNat ≤ 32 ∧ 32 ≤ '9'.toNat) ∨
        ('A'.toNat ≤ 32 ∧ 32 ≤ 'Z'.toNat) ∨ ('a'.toNat ≤ 32 ∧ 32 ≤ 'z'.toNat)) ∧
      AsciiToB64 (Buffer.ofList []) [32] 0 = 240 ∧
      AsciiToB64InPlace (Buffer.ofList [32]) 1 0 = 240 ∧
      ¬ (AsciiToB64 (Buffer.ofList []) [32] 0 = 0) ∧
      ¬ (AsciiToB64 (Buffer.ofList []) [32] 0 < 64) := by
  decide

/-! ## The stages of `decodeName` -/

theorem Buffer.slice_take (buf : Buffer) (off n k : Nat) (hk : k ≤ n) :
    buf.slice off k = (buf.slice off n).take k := by
  apply Buffer.slice_eq_of_getD
  · rw [List.length_take, Buffer.length_slice]; omega
  · intro i hi
    rw [List.getD_eq_getElem _ _ (by rw [List.length_take, Buffer.length_slice]; omega),
      List.getElem_take]
    simp [Buffer.slice]

namespace B32BlockNameIO

variable {Key : Type}

/-- The method `decodeName` as its three checks in order, in terms of its stages. -/
theorem decodeName_eq (io : B32BlockNameIO Key) (enc : List Nat) (iv : Option Nat) :
    io.decodeName enc iv =
      if decodedStreamLen enc.length < io._bs then
        (.error "Filename too small to decode", iv)
      else if paddingByte io enc iv > io._bs ∨
          decodedStreamLen enc.length - paddingByte io enc iv < 0 then
        (.error "invalid padding size", iv)
      else if (io._cipher.MAC_16 (payload io enc iv) io._key iv).1 ≠ storedMac enc then
        (.error "checksum mismatch in filename decode",
          (io._cipher.MAC_16 (payload io enc iv) io._key iv).2)
      else
        (.ok ((decryptedBuf io enc iv).slice 2
            (decodedStreamLen enc.length - paddingByte io enc iv).toNat,
          decodedStreamLen enc.length - paddingByte io enc iv),
          (io._cipher.MAC_16 (payload io enc iv) io._key iv).2) := by
  rfl

theorem payload_length (io : B32BlockNameIO Key) (enc : List Nat) (iv : Option Nat) :
    (payload io enc iv).length = (decodedStreamLen enc.length).toNat := by
  simp [payload, Buffer.length_slice]

theorem paddingByte_range (io : B32BlockNameIO Key) (enc : List Nat) (iv : Option Nat) :
    0 ≤ paddingByte io enc iv ∧ paddingByte io enc iv < 256 := by
  unfold paddingByte
  omega

/-- The padding byte is the last byte of the decrypted payload. -/
theorem paddingByte_eq_last (io : B32BlockNameIO Key) (enc : List Nat) (iv : Option Nat)
    (h : 1 ≤ decodedStreamLen enc.length) :
    paddingByte io enc iv =
      (((payload io enc iv).getD ((payload io enc iv).length - 1) 0 % 256 : Nat) : Int) := by
  have hl := payload_length io enc iv
  have e : (2 + decodedStreamLen enc.length - 1).toNat =
      2 + ((decodedStreamLen enc.length).toNat - 1) := by omega
  unfold paddingByte
  rw [e, hl, List.getD_eq_getElem _ _ (by rw [hl]; omega)]
  simp only [payload, Buffer.slice, List.getElem_map, List.getElem_range]
  push_cast
  rfl

end B32BlockNameIO

namespace B32BlockNameIO

variable {Key : Type}

/-- The stages of `decodeName` on the printable form of `[mac >> 8 & 0xff, mac & 0xff] ++ e`,
when `e` decrypts to `body`. -/
theorem decode_stages_of_preimage (io : B32BlockNameIO Key) (iv : Option Nat) (mac : Nat)
    (e body : List Nat) (hmac : mac < 65536) (he : ∀ b ∈ e, b < 256)
    (hlen : e.length = body.length) (hbody : 1 ≤ body.length)
    (hdec : io._cipher.blockDecode e (mac ^^^ io.tmpIV iv) io._key = body) :
    decodedStreamLen
        ((bitGroups 8 5 ([(mac >>> 8) &&& 0xff, mac &&& 0xff] ++ e) 0 0).map
          fun b => binary_to_ascii_base32_table.getD b 0).length = (body.length : Int) ∧
      storedMac
        ((bitGroups 8 5 ([(mac >>> 8) &&& 0xff, mac &&& 0xff] ++ e) 0 0).map
          fun b => binary_to_ascii_base32_table.getD b 0) = mac ∧
      payload io
        ((bitGroups 8 5 ([(mac >>> 8) &&& 0xff, mac &&& 0xff] ++ e) 0 0).map
          fun b => binary_to_ascii_base32_table.getD b 0) iv = body := by
  have hprelen : ([(mac >>> 8) &&& 0xff, mac &&& 0xff] ++ e).length = body.length + 2 := by
    simp [hlen]
  have hprebytes : ∀ b ∈ [(mac >>> 8) &&& 0xff, mac &&& 0xff] ++ e, b < 256 := by
    intro b hb
    rw [List.mem_append] at hb
    rcases hb with hb | hb
    · simp only [List.mem_cons, List.mem_singleton, List.not_mem_nil, or_false] at hb
      rcases hb with rfl | rfl
      · exact (checksum_bytes_lt _).1
      · exact (checksum_bytes_lt _).2
    · exact he b hb
  have hsc := fun j hj => scratch_buffer _ hprebytes (by rw [hprelen]; omega) j hj
  rw [hprelen] at hsc
  have hdsl : decodedStreamLen
      ((bitGroups 8 5 ([(mac >>> 8) &&& 0xff, mac &&& 0xff] ++ e) 0 0).map
        fun b => binary_to_ascii_base32_table.getD b 0).length = (body.length : Int) := by
    rw [List.length_map, bitGroups_length 8 5 (by decide), hprelen]
    unfold decodedStreamLen B32ToB256Bytes
    omega
  have hm : storedMac
      ((bitGroups 8 5 ([(mac >>> 8) &&& 0xff, mac &&& 0xff] ++ e) 0 0).map
        fun b => binary_to_ascii_base32_table.getD b 0) = mac := by
    unfold storedMac radixDecoded
    rw [hsc 0 (by omega), hsc 1 (by omega)]
    simp only [List.cons_append, List.getD_cons_zero, List.getD_cons_succ]
    exact mac_reassemble _ hmac
  refine ⟨hdsl, hm, ?_⟩
  have hsl : (radixDecoded
      ((bitGroups 8 5 ([(mac >>> 8) &&& 0xff, mac &&& 0xff] ++ e) 0 0).map
        fun b => binary_to_ascii_base32_table.getD b 0)).slice 2 body.length = e := by
    apply Buffer.slice_eq_of_getD _ _ _ _ hlen
    intro i hi
    unfold radixDecoded
    rw [hsc (2 + i) (by omega)]
    have e2 : 2 + i = i + 1 + 1 := by omega
    rw [e2]
    simp only [List.cons_append, List.getD_cons_succ, List.nil_append]
  unfold payload decryptedBuf
  rw [hdsl, hm, Int.toNat_ofNat, hsl, hdec]
  exact Buffer.slice_write_self _ 2 body

/-! ## Claims on the checks of `decodeName` -/

/-- C13: `decodeName` fails with "Filename too small to decode" exactly when
`floor(5n/8) - 2 < bs`; then the chained IV is returned unchanged and the outcome is the same
for every cipher and key, which are not consulted. -/
theorem decodeName_too_small (io : B32BlockNameIO Key) (enc : List Nat) (iv : Option Nat) :
    ((io.decodeName enc iv).1 = .error "Filename too small to decode" ↔
      ((enc.length * 5 / 8 : Nat) : Int) - 2 < io._bs) ∧
    (((enc.length * 5 / 8 : Nat) : Int) - 2 < io._bs →
      (io.decodeName enc iv).2 = iv ∧
        ∀ (cipher : Cipher Key) (key : Key),
          (⟨io._interface, io._bs, cipher, key⟩ : B32BlockNameIO Key).decodeName enc iv =
            (.error "Filename too small to decode", iv)) := by
  have hd : decodedStreamLen enc.length = ((enc.length * 5 / 8 : Nat) : Int) - 2 := rfl
  rw [← hd]
  constructor
  · constructor
    · intro h
      by_contra hc
      rw [decodeName_eq, if_neg hc] at h
      split at h
      · simp at h
      · split at h
        · simp at h
        · simp at h
    · intro h
      rw [decodeName_eq, if_pos h]
  · intro h
    refine ⟨by rw [decodeName_eq, if_pos h], fun cipher key => ?_⟩
    rw [decodeName_eq, if_pos h]

/-- C13, witness: a name of two characters radix-decodes to one byte. -/
theorem decodeName_too_small_witness :
    (toyCodec.decodeName [97, 97] (some 7)).1 = .error "Filename too small to decode" ∧
      (toyCodec.decodeName [97, 97] (some 7)).2 = some 7 :=
  ⟨(decodeName_too_small toyCodec [97, 97] (some 7)).1.2 (by decide),
    ((decodeName_too_small toyCodec [97, 97] (some 7)).2 (by decide)).1⟩

/-- C14, as the code has it: for an input that passes the size check, if the padding byte is
greater than the block size, or greater than the decoded stream length, `decodeName` fails with
"invalid padding size"; the chained IV is returned unchanged and `MAC_16` is not consulted (the
outcome is the same whatever `MAC_16` is). -/
theorem decodeName_invalid_padding (io : B32BlockNameIO Key) (enc : List Nat) (iv : Option Nat)
    (hsize : ¬ decodedStreamLen enc.length < io._bs)
    (hpad : paddingByte io enc iv > io._bs ∨
      decodedStreamLen enc.length - paddingByte io enc iv < 0) :
    io.decodeName enc iv = (.error "invalid padding size", iv) ∧
      ∀ cipher : Cipher Key, cipher.blockDecode = io._cipher.blockDecode →
        (⟨io._interface, io._bs, cipher, io._key⟩ : B32BlockNameIO Key).decodeName enc iv =
          (.error "invalid padding size", iv) := by
  constructor
  · rw [decodeName_eq, if_neg hsize, if_pos hpad]
  · intro cipher hc
    have hp : paddingByte (⟨io._interface, io._bs, cipher, io._key⟩ : B32BlockNameIO Key)
        enc iv = paddingByte io enc iv := by
      simp only [paddingByte, decryptedBuf, hc, tmpIV]
    rw [decodeName_eq, if_neg hsize, hp, if_pos hpad]

end B32BlockNameIO

namespace B32BlockNameIO

variable {Key : Type}

/-- The name `aibuafibkqcuafib`: the toy codec's printable form of the MAC 5 and eight bytes
10, which decrypt to eight zero bytes. -/
theorem toy_zero_name :
    [97, 105, 98, 117, 97, 102, 105, 98, 107, 113, 99, 117, 97, 102, 105, 98] =
      (bitGroups 8 5 ([(5 >>> 8) &&& 0xff, 5 &&& 0xff] ++ List.replicate 8 10) 0 0).map
        fun b => binary_to_ascii_base32_table.getD b 0 := by
  rw [show [(5 >>> 8) &&& 0xff, 5 &&& 0xff] ++ List.replicate 8 10 =
    [0, 5, 10, 10, 10, 10, 10, 10, 10, 10] from by decide, bitGroups_8_5 _ (by decide)]
  decide

/-- The name `aitfnjl2swufnjlt`: the toy codec's printable form of the MAC 205 and a block
that decrypts to seven zero bytes and the byte 200. -/
theorem toy_bad_padding_name :
    [97, 105, 116, 102, 110, 106, 108, 50, 115, 119, 117, 102, 110, 106, 108, 116] =
      (bitGroups 8 5
        ([(205 >>> 8) &&& 0xff, 205 &&& 0xff] ++ [210, 210, 210, 210, 210, 210, 210, 154])
        0 0).map fun b => binary_to_ascii_base32_table.getD b 0 := by
  rw [show [(205 >>> 8) &&& 0xff, 205 &&& 0xff] ++ [210, 210, 210, 210, 210, 210, 210, 154] =
    [0, 205, 210, 210, 210, 210, 210, 210, 210, 154] from by decide,
    bitGroups_8_5 _ (by decide)]
  decide

/-- The name `aajusvqforl4cxyf`: the toy codec's printable form of the name `[1, 2, 3]`. -/
theorem toy_good_name :
    [97, 97, 106, 117, 115, 118, 113, 102, 111, 114, 108, 52, 99, 120, 121, 102] =
      (bitGroups 8 5
        ([(36 >>> 8) &&& 0xff, 36 &&& 0xff] ++ [42, 43, 44, 46, 46, 46, 46, 46])
        0 0).map fun b => binary_to_ascii_base32_table.getD b 0 := by
  rw [show [(36 >>> 8) &&& 0xff, 36 &&& 0xff] ++ [42, 43, 44, 46, 46, 46, 46, 46] =
    [0, 36, 42, 43, 44, 46, 46, 46, 46, 46] from by decide, bitGroups_8_5 _ (by decide)]
  decide

/-- C14, counterexample: the name `aibuafibkqcuafib` passes the size check of the toy codec
(block size 8), its decrypted payload ends in the padding byte 0, which is outside 1..8, and
`decodeName` does not fail: it returns all eight payload bytes. -/
theorem decodeName_zero_padding_accepted :
    ¬ (decodedStreamLen ([97, 105, 98, 117, 97, 102, 105, 98, 107, 113, 99, 117, 97, 102, 105, 98] : List Nat).length < toyCodec._bs) ∧
      paddingByte toyCodec [97, 105, 98, 117, 97, 102, 105, 98, 107, 113, 99, 117, 97, 102, 105, 98] none = 0 ∧
      toyCodec.decodeName [97, 105, 98, 117, 97, 102, 105, 98, 107, 113, 99, 117, 97, 102, 105, 98] none = (.ok ([0, 0, 0, 0, 0, 0, 0, 0], 8), none) := by
  obtain ⟨h1, _, h3⟩ := decode_stages_of_preimage toyCodec none 5 (List.replicate 8 10)
    (List.replicate 8 0) (by decide) (by decide) (by decide) (by decide) (by decide)
  have h4 := decodeName_of_preimage toyCodec none 5 (List.replicate 8 10) (List.replicate 8 0)
    0 (by decide) (by decide) (by decide) (by decide) (by decide) (by decide) (by decide)
    (by decide)
  rw [← toy_zero_name] at h1 h3 h4
  refine ⟨by decide, ?_, ?_⟩
  · rw [paddingByte_eq_last _ _ _ (by decide), h3]
    decide
  · rw [h4]
    rfl

/-- C14, witness: the name `aitfnjl2swufnjlt` decrypts to a payload ending in 200, more than
the block size 8, and is rejected for its padding. -/
theorem decodeName_invalid_padding_witness :
    toyCodec.decodeName [97, 105, 116, 102, 110, 106, 108, 50, 115, 119, 117, 102, 110, 106, 108, 116] none = (.error "invalid padding size", none) := by
  obtain ⟨_, _, h3⟩ := decode_stages_of_preimage toyCodec none 205
    [210, 210, 210, 210, 210, 210, 210, 154] [0, 0, 0, 0, 0, 0, 0, 200]
    (by decide) (by decide) (by decide) (by decide) (by decide)
  rw [← toy_bad_padding_name] at h3
  have hp : paddingByte toyCodec [97, 105, 116, 102, 110, 106, 108, 50, 115, 119, 117, 102, 110, 106, 108, 116] none = 200 := by
    rw [paddingByte_eq_last _ _ _ (by decide), h3]
    decide
  exact (decodeName_invalid_padding toyCodec [97, 105, 116, 102, 110, 106, 108, 50, 115, 119, 117, 102, 110, 106, 108, 116] none (by decide)
    (Or.inl (by rw [hp]; decide))).1

/-- C15: for an input on which the size check and the padding check pass, `decodeName`
succeeds exactly when `MAC_16` over the whole decrypted payload (all `decodedStreamLen` bytes),
with the caller's chained IV, equals the 16-bit value of the first two radix-decoded bytes, high
byte first; otherwise it fails with the checksum error.  On success it returns the first
`decodedStreamLen - padding` bytes of the decrypted payload and their number.  In both cases
the chained IV is the one `MAC_16` left. -/
theorem decodeName_checksum_gate (io : B32BlockNameIO Key) (enc : List Nat) (iv : Option Nat)
    (hsize : ¬ decodedStreamLen enc.length < io._bs)
    (hpad : ¬ (paddingByte io enc iv > io._bs ∨
      decodedStreamLen enc.length - paddingByte io enc iv < 0)) :
    (payload io enc iv).length = (decodedStreamLen enc.length).toNat ∧
    ((∃ res, (io.decodeName enc iv).1 = .ok res) ↔
      (io._cipher.MAC_16 (payload io enc iv) io._key iv).1 = storedMac enc) ∧
    ((io._cipher.MAC_16 (payload io enc iv) io._key iv).1 ≠ storedMac enc →
      io.decodeName enc iv =
        (.error "checksum mismatch in filename decode",
          (io._cipher.MAC_16 (payload io enc iv) io._key iv).2)) ∧
    ((io._cipher.MAC_16 (payload io enc iv) io._key iv).1 = storedMac enc →
      io.decodeName enc iv =
        (.ok ((payload io enc iv).take
            (decodedStreamLen enc.length - paddingByte io enc iv).toNat,
          decodedStreamLen enc.length - paddingByte io enc iv),
          (io._cipher.MAC_16 (payload io enc iv) io._key iv).2)) := by
  have hr := paddingByte_range io enc iv
  have hk : (decodedStreamLen enc.length - paddingByte io enc iv).toNat ≤
      (decodedStreamLen enc.length).toNat := by omega
  have hne : (io._cipher.MAC_16 (payload io enc iv) io._key iv).1 ≠ storedMac enc →
      io.decodeName enc iv =
        (.error "checksum mismatch in filename decode",
          (io._cipher.MAC_16 (payload io enc iv) io._key iv).2) := by
    intro h
    rw [decodeName_eq, if_neg hsize, if_neg hpad, if_pos h]
  have heq : (io._cipher.MAC_16 (payload io enc iv) io._key iv).1 = storedMac enc →
      io.decodeName enc iv =
        (.ok ((payload io enc iv).take
            (decodedStreamLen enc.length - paddingByte io enc iv).toNat,
          decodedStreamLen enc.length - paddingByte io enc iv),
          (io._cipher.MAC_16 (payload io enc iv) io._key iv).2) := by
    intro h
    rw [decodeName_eq, if_neg hsize, if_neg hpad, if_neg (by simpa using h),
      Buffer.slice_take _ 2 _ _ hk]
    rfl
  refine ⟨payload_length io enc iv, ⟨?_, ?_⟩, hne, heq⟩
  · rintro ⟨res, hres⟩
    by_contra hc
    rw [hne hc] at hres
    cases hres
  · intro h
    exact ⟨_, by rw [heq h]⟩

/-- C15, witness: the name `aajusvqforl4cxyf` passes the size and padding checks of the toy
codec. -/
theorem decodeName_checksum_gate_witness :
    (∃ res, (toyCodec.decodeName [97, 97, 106, 117, 115, 118, 113, 102, 111, 114, 108, 52, 99, 120, 121, 102] none).1 = .ok res) ↔
      (toyCodec._cipher.MAC_16 (payload toyCodec [97, 97, 106, 117, 115, 118, 113, 102, 111, 114, 108, 52, 99, 120, 121, 102] none) toyCodec._key none).1 =
        storedMac [97, 97, 106, 117, 115, 118, 113, 102, 111, 114, 108, 52, 99, 120, 121, 102] := by
  obtain ⟨_, _, h3⟩ := decode_stages_of_preimage toyCodec none 36
    [42, 43, 44, 46, 46, 46, 46, 46] [1, 2, 3, 5, 5, 5, 5, 5]
    (by decide) (by decide) (by decide) (by decide) (by decide)
  rw [← toy_good_name] at h3
  have hp : paddingByte toyCodec [97, 97, 106, 117, 115, 118, 113, 102, 111, 114, 108, 52, 99, 120, 121, 102] none = 5 := by
    rw [paddingByte_eq_last _ _ _ (by decide), h3]
    decide
  exact (decodeName_checksum_gate toyCodec [97, 97, 106, 117, 115, 118, 113, 102, 111, 114, 108, 52, 99, 120, 121, 102] none (by decide)
    (by rw [hp]; decide)).2.1

set_option maxRecDepth 100000 in
theorem swapCase_table_byte : ∀ c < 256,
    ascii_to_binary_base32_table.getD (swapCase c) 0 =
      ascii_to_binary_base32_table.getD c 0 := by
  decide

theorem swapCase_table (c : Nat) :
    ascii_to_binary_base32_table.getD (swapCase c) 0 =
      ascii_to_binary_base32_table.getD c 0 := by
  by_cases h : c < 256
  · exact swapCase_table_byte c h
  · have e : swapCase c = c := by
      unfold swapCase
      have e1 : 'Z'.toNat = 90 := by decide
      have e2 : 'z'.toNat = 122 := by decide
      rw [if_neg (by omega), if_neg (by omega)]
    rw [e]

/-- C20: `decodeName` gives the same outcome (the same error, or the same plaintext, length
and chained IV) on an encoded name and on that name with any of its letters replaced by the
letter of the opposite case. -/
theorem decodeName_case_insensitive (io : B32BlockNameIO Key) (enc enc2 : List Nat)
    (iv : Option Nat) (hlen : enc2.length = enc.length)
    (hcase : ∀ i < enc.length,
      enc2.getD i 0 = enc.getD i 0 ∨ enc2.getD i 0 = swapCase (enc.getD i 0)) :
    io.decodeName enc2 iv = io.decodeName enc iv ∧
      ∀ out : Buffer, AsciiToB32 out enc2 = AsciiToB32 out enc := by
  have hA : ∀ out : Buffer, AsciiToB32 out enc2 = AsciiToB32 out enc := by
    intro out
    funext j
    rw [AsciiToB32_apply, AsciiToB32_apply, hlen]
    by_cases hj : j < enc.length
    · rw [if_pos hj, if_pos hj]
      rcases hcase j hj with h | h
      · rw [h]
      · rw [h, swapCase_table]
    · rw [if_neg hj, if_neg hj]
  refine ⟨?_, hA⟩
  unfold decodeName
  simp only [hlen, hA]

/-- C20, witness: `AAJUSVQFORL4CXYF` decodes as `aajusvqforl4cxyf` does. -/
theorem decodeName_case_insensitive_witness :
    toyCodec.decodeName [65, 65, 74, 85, 83, 86, 81, 70, 79, 82, 76, 52, 67, 88, 89, 70] none = toyCodec.decodeName [97, 97, 106, 117, 115, 118, 113, 102, 111, 114, 108, 52, 99, 120, 121, 102] none :=
  (decodeName_case_insensitive toyCodec [97, 97, 106, 117, 115, 118, 113, 102, 111, 114, 108, 52, 99, 120, 121, 102] [65, 65, 74, 85, 83, 86, 81, 70, 79, 82, 76, 52, 67, 88, 89, 70] none (by decide) (by decide)).1

end B32BlockNameIO

/-! ## The in-place converter: the flag and the empty input -/

/-- On an empty input the recursive converter still stores one byte, the value 0, at the start
of the buffer, whatever the flag is. -/
theorem changeBase2Inline_empty (buf : Buffer) (s d : Nat) (flag : Bool) :
    changeBase2Inline buf 0 s d flag = buf.set 0 0 := by
  unfold changeBase2Inline
  rw [changeBase2InlineAux_unfold]
  simp only [changeBase2Inline.read, ne_eq, not_true_eq_false, false_and, if_false,
    Option.getD_none, Nat.zero_and, Nat.zero_mod, Nat.zero_shiftRight]
  cases flag
  · simp
  · simp only [if_true]
    rw [changeBase2Inline.flush, dif_neg (by omega)]

/-- C17, at the failing input: with `srcLen = 0` the in-place converter overwrites the first
byte of the buffer (here 7) with 0, for either value of the flag, while `changeBase2` stores
nothing for an empty input. -/
theorem changeBase2Inline_empty_writes :
    Buffer.ofList [7] 0 = 7 ∧
      changeBase2Inline (Buffer.ofList [7]) 0 8 5 true 0 = 0 ∧
      changeBase2Inline (Buffer.ofList [7]) 0 8 5 false 0 = 0 ∧
      changeBase2 [] 8 1 5 = [] := by
  rw [changeBase2Inline_empty, changeBase2Inline_empty]
  refine ⟨by decide, by decide, by decide, ?_⟩
  simp [changeBase2, changeBase2.loop]

theorem read_exhausted (buf : Buffer) (s d : Nat) :
    ∀ (n src w wb : Nat), 0 < n →
      (changeBase2Inline.read buf s d n src w (wb : Int)).2.1 = 0 →
        (changeBase2Inline.read buf s d n src w (wb : Int)).2.2.2 < (d : Int) + s := by
  intro n
  induction n with
  | zero => intro src w wb h; omega
  | succ n ih =>
    intro src w wb _ h0
    by_cases hc : (wb : Int) < (d : Int)
    · have e : changeBase2Inline.read buf s d (n + 1) src w (wb : Int) =
          changeBase2Inline.read buf s d n (src + 1) (w ||| (buf src <<< wb))
            ((wb + s : Nat) : Int) := by
        rw [changeBase2Inline.read, if_pos hc]
        simp
      rw [e] at h0 ⊢
      cases n with
      | zero =>
        simp only [changeBase2Inline.read]
        push_cast
        omega
      | succ n => exact ih _ _ _ (by omega) h0
    · rw [changeBase2Inline.read, if_neg hc] at h0
      simp at h0

/-- Without `outputPartialLastByte` the recursive converter stores one symbol per level of the
recursion: the first `(workBits + (srcLen - 1) * s) / d + 1` symbols of the bit stream. -/
theorem inlineAux_false_exact (buf : Buffer) (s d : Nat) (hs : 0 < s) (hd : 0 < d) :
    ∀ (m n src w wb : Nat) (outLoc : Option Nat), n * s + wb ≤ m → 0 < n →
      changeBase2InlineAux buf src n s d false w (wb : Int) outLoc =
        buf.write (outLoc.getD src)
          ((bitGroups s d (buf.slice src n) w wb).take ((wb + (n - 1) * s) / d + 1)) := by
  intro m
  induction m with
  | zero =>
    intro n src w wb outLoc h hn
    exfalso
    have : 0 < n * s := Nat.mul_pos hn hs
    omega
  | succ m ih =>
    intro n src w wb outLoc h hn
    obtain ⟨wb1, h1, h2, h3, h4, _⟩ := read_spec buf s d n src w wb
    have hex := read_exhausted buf s d n src w wb hn
    obtain ⟨n0, rfl⟩ : ∃ n0, n = n0 + 1 := ⟨n - 1, by omega⟩
    rw [changeBase2InlineAux_unfold, h2, h1]
    simp only [Nat.add_sub_cancel]
    rw [Nat.succ_mul] at h4 h
    by_cases hr : (changeBase2Inline.read buf s d (n0 + 1) src w (wb : Int)).2.1 ≠ 0
    · have hle := h3 hr
      have e : ((wb1 : Int) - (d : Int)) = ((wb1 - d : Nat) : Int) := by omega
      obtain ⟨n1, hn1⟩ : ∃ n1,
          (changeBase2Inline.read buf s d (n0 + 1) src w (wb : Int)).2.1 = n1 + 1 :=
        ⟨_, (Nat.succ_pred_eq_of_pos (Nat.pos_of_ne_zero hr)).symm⟩
      have hrec := ih (changeBase2Inline.read buf s d (n0 + 1) src w (wb : Int)).2.1
        (changeBase2Inline.read buf s d (n0 + 1) src w (wb : Int)).1
        ((changeBase2Inline.read buf s d (n0 + 1) src w (wb : Int)).2.2.1 >>> d) (wb1 - d)
        (some (outLoc.getD src + 1)) (by omega) (Nat.pos_of_ne_zero hr)
      rw [if_pos ⟨hr, hd⟩, e, hrec]
      simp only [Option.getD_some]
      rw [hn1, Nat.succ_mul] at h4
      rw [Buffer.set_write_succ, bitGroups_emit s d _ _ wb1 hle hd, hn1, Nat.add_sub_cancel]
      have e2 : wb + n0 * s = (wb1 - d + n1 * s) + d := by omega
      rw [e2, Nat.add_div_right _ hd, List.take_succ_cons]
    · have hr0 : (changeBase2Inline.read buf s d (n0 + 1) src w (wb : Int)).2.1 = 0 := by
        simpa using hr
      have hlt := hex hr0
      rw [h1] at hlt
      rw [hr0] at h4
      have hwb1 : 0 < wb1 := by omega
      have hk : (wb + n0 * s) / d = 0 := Nat.div_eq_of_lt (by omega)
      rw [if_neg (fun hx => hr hx.1), hr0, Buffer.slice_zero, hk]
      simp only [Bool.false_eq_true, if_false]
      by_cases hc : d ≤ wb1
      · rw [bitGroups_emit s d [] _ wb1 hc hd, Buffer.set_eq_write]
        simp
      · have hne : wb1 ≠ 0 := by omega
        rw [bitGroups_nil s d _ wb1 (by omega), Buffer.set_eq_write]
        simp [hne]

/-- What the in-place converter does without `outputPartialLastByte`, for `srcLen >= 1`: it
stores the first `(srcLen - 1) * s / d + 1` bytes that `changeBase2` stores and nothing else.
This number is neither always the number `srcLen * s / d` of complete symbols nor always the
number of all symbols. -/
theorem changeBase2Inline_flag_false (buf : Buffer) (srcLen s d dstLen : Nat) (hn : 1 ≤ srcLen)
    (hs : 1 ≤ s) (hd : 1 ≤ d) (hlen : (srcLen * s + d - 1) / d ≤ dstLen) :
    changeBase2Inline buf srcLen s d false =
      buf.write 0 ((changeBase2 (buf.slice 0 srcLen) s dstLen d).take
        ((srcLen - 1) * s / d + 1)) := by
  have hl := bitGroups_length s d hd (buf.slice 0 srcLen) 0 0
  rw [Nat.zero_add, Buffer.length_slice, Nat.mul_comm] at hl
  rw [changeBase2_eq_bitGroups s d dstLen hd (buf.slice 0 srcLen) (by rw [hl]; exact hlen)]
  have e := inlineAux_false_exact buf s d hs hd _ srcLen 0 0 0 none (Nat.le_refl _) hn
  simp only [Option.getD_none, Nat.cast_zero, Nat.zero_add] at e
  unfold changeBase2Inline
  exact e

/-- C16, at two failing inputs.  Three radix-32 symbols to bytes without the flag: 15 bits
hold one complete byte, yet two bytes are stored, the second one partial.  One byte to single
bits without the flag: eight complete symbols exist, yet only the first is stored. -/
theorem changeBase2Inline_flag_false_examples :
    (changeBase2Inline (Buffer.ofList [31, 31, 31]) 3 5 8 false).slice 0 3 = [255, 127, 31] ∧
      3 * 5 / 8 = 1 ∧
      (changeBase2Inline (Buffer.ofList [255, 9, 9, 9, 9, 9, 9, 9]) 1 8 1 false).slice 0 8 =
        [1, 9, 9, 9, 9, 9, 9, 9] ∧
      changeBase2 [255] 8 8 1 = [1, 1, 1, 1, 1, 1, 1, 1] := by
  have h1 : changeBase2 [31, 31, 31] 5 2 8 = [255, 127] := by
    simp [changeBase2, changeBase2.loop, changeBase2.drain]
    decide
  have h2 : changeBase2 [255] 8 8 1 = [1, 1, 1, 1, 1, 1, 1, 1] := by
    simp [changeBase2, changeBase2.loop, changeBase2.drain]
  have e1 : (Buffer.ofList [31, 31, 31]).slice 0 3 = [31, 31, 31] := by decide
  have e2 : (Buffer.ofList [255, 9, 9, 9, 9, 9, 9, 9]).slice 0 1 = [255] := by decide
  rw [changeBase2Inline_flag_false _ 3 5 8 2 (by decide) (by decide) (by decide) (by decide),
    changeBase2Inline_flag_false _ 1 8 1 8 (by decide) (by decide) (by decide) (by decide),
    e1, e2, h1, h2]
  decide

/-! ## Termination of the in-place converter -/

theorem nextCall_eq (buf : Buffer) (s d : Nat) (st : Nat × Nat × Nat × Int) :
    changeBase2Inline.nextCall buf s d st =
      if (changeBase2Inline.read buf s d st.2.1 st.1 st.2.2.1 st.2.2.2).2.1 ≠ 0 then
        some ((changeBase2Inline.read buf s d st.2.1 st.1 st.2.2.1 st.2.2.2).1,
          (changeBase2Inline.read buf s d st.2.1 st.1 st.2.2.1 st.2.2.2).2.1,
          (changeBase2Inline.read buf s d st.2.1 st.1 st.2.2.1 st.2.2.2).2.2.1 >>> d,
          (changeBase2Inline.read buf s d st.2.1 st.1 st.2.2.1 st.2.2.2).2.2.2 - d)
      else none := by
  rfl

/-- The recursive converter recurses exactly where `nextCall` says, with those arguments. -/
theorem changeBase2InlineAux_nextCall (buf : Buffer) (src srcLen s d : Nat) (hd : 0 < d)
    (flag : Bool) (work : Nat) (workBits : Int) (outLoc : Option Nat)
    (st1 : Nat × Nat × Nat × Int)
    (h : changeBase2Inline.nextCall buf s d (src, srcLen, work, workBits) = some st1) :
    changeBase2InlineAux buf src srcLen s d flag work workBits outLoc =
      (changeBase2InlineAux buf st1.1 st1.2.1 s d flag st1.2.2.1 st1.2.2.2
        (some (outLoc.getD src + 1))).set (outLoc.getD src)
        (((changeBase2Inline.read buf s d srcLen src work workBits).2.2.1 &&&
          ((1 <<< d) - 1)) % 256) := by
  rw [nextCall_eq] at h
  split at h
  · rename_i hr
    injection h with h
    subst h
    rw [changeBase2InlineAux_unfold, if_pos ⟨hr, hd⟩]
  · cases h

theorem read_le (buf : Buffer) (s d : Nat) :
    ∀ (n src w : Nat) (wb : Int), (changeBase2Inline.read buf s d n src w wb).2.1 ≤ n := by
  intro n
  induction n with
  | zero => intro src w wb; simp [changeBase2Inline.read]
  | succ n ih =>
    intro src w wb
    rw [changeBase2Inline.read]
    split
    · exact Nat.le_succ_of_le (ih _ _ _)
    · exact Nat.le_refl _

/-- Every recursive call lowers `srcLen * s + workBits` by `d`; its `workBits` is not
negative and its `srcLen` is not larger. -/
theorem nextCall_measure (buf : Buffer) (s d : Nat) (src n w wb : Nat)
    (st1 : Nat × Nat × Nat × Int)
    (h : changeBase2Inline.nextCall buf s d (src, n, w, (wb : Int)) = some st1) :
    (st1.2.1 : Int) * s + st1.2.2.2 + d = (n : Int) * s + wb ∧ 0 ≤ st1.2.2.2 ∧
      st1.2.1 ≤ n := by
  obtain ⟨wb1, h1, _, h3, h4, _⟩ := read_spec buf s d n src w wb
  rw [nextCall_eq] at h
  split at h
  · rename_i hr
    injection h with h
    subst h
    have hle := h3 hr
    simp only [h1]
    have h5 : ((changeBase2Inline.read buf s d n src w (wb : Int)).2.1 : Int) * s + wb1 =
        (n : Int) * s + wb := by exact_mod_cast h4
    exact ⟨by omega, by omega, read_le buf s d n src w wb⟩
  · cases h

/-- The recursion below a call with `srcLen * s + workBits` unprocessed bits ends, after `k`
nested calls with `k * d` at most that number. -/
theorem depth_spec (buf : Buffer) (s d : Nat) (hd : 0 < d) :
    ∀ (m n src w wb : Nat), n * s + wb ≤ m →
      ∃ k, k * d ≤ n * s + wb ∧
        ∀ fuel, k < fuel →
          changeBase2Inline.depth buf s d fuel (src, n, w, (wb : Int)) = some k := by
  intro m
  induction m with
  | zero =>
    intro n src w wb h
    refine ⟨0, by omega, fun fuel hf => ?_⟩
    obtain ⟨f, rfl⟩ : ∃ f, fuel = f + 1 := ⟨fuel - 1, by omega⟩
    cases hnc : changeBase2Inline.nextCall buf s d (src, n, w, (wb : Int)) with
    | none => simp [changeBase2Inline.depth, hnc]
    | some st1 =>
      exfalso
      obtain ⟨h1, h2, _⟩ := nextCall_measure buf s d src n w wb st1 hnc
      have h3 : (0 : Int) ≤ (st1.2.1 : Int) * s := by positivity
      have h4 : ((n * s + wb : Nat) : Int) = 0 := by omega
      push_cast at h4
      omega
  | succ m ih =>
    intro n src w wb h
    cases hnc : changeBase2Inline.nextCall buf s d (src, n, w, (wb : Int)) with
    | none =>
      refine ⟨0, by omega, fun fuel hf => ?_⟩
      obtain ⟨f, rfl⟩ : ∃ f, fuel = f + 1 := ⟨fuel - 1, by omega⟩
      simp [changeBase2Inline.depth, hnc]
    | some st1 =>
      obtain ⟨h1, h2, _⟩ := nextCall_measure buf s d src n w wb st1 hnc
      obtain ⟨src1, n1, w1, wbi⟩ := st1
      simp only at h1 h2
      obtain ⟨wb1, rfl⟩ : ∃ wb1 : Nat, wbi = (wb1 : Int) := ⟨wbi.toNat, by omega⟩
      have h5 : n1 * s + wb1 + d = n * s + wb := by exact_mod_cast h1
      obtain ⟨k, hk, hfuel⟩ := ih n1 src1 w1 wb1 (by omega)
      refine ⟨k + 1, by rw [Nat.succ_mul]; omega, fun fuel hf => ?_⟩
      obtain ⟨f, rfl⟩ : ∃ f, fuel = f + 1 := ⟨fuel - 1, by omega⟩
      simp [changeBase2Inline.depth, hnc, hfuel f (by omega)]

/-- C18: for every `src2Pow` (1..8 among them), `dst2Pow` in 1..8 and every `srcLen`, the
recursion of
`changeBase2Inline` started with `work = 0`, `workBits = 0` ends: it makes `k` nested recursive
calls with `k <= floor(srcLen * src2Pow / dst2Pow) <= ceil(srcLen * src2Pow / dst2Pow)`.  Every
recursive call has `srcLen * src2Pow + workBits` lower by `dst2Pow` than its caller (with the
same `srcLen`, its `workBits` is lower by `dst2Pow`), and the recursive function of the model
recurses exactly along these calls. -/
theorem changeBase2Inline_terminates (buf : Buffer) (srcLen s d : Nat)
    (hd : 1 ≤ d ∧ d ≤ 8) :
    (∃ k, k ≤ srcLen * s / d ∧ k ≤ (srcLen * s + d - 1) / d ∧
      ∀ fuel, k < fuel →
        changeBase2Inline.depth buf s d fuel (0, srcLen, 0, 0) = some k) ∧
    (∀ (src n w wb : Nat) (st1 : Nat × Nat × Nat × Int),
      changeBase2Inline.nextCall buf s d (src, n, w, (wb : Int)) = some st1 →
        (st1.2.1 : Int) * s + st1.2.2.2 + d = (n : Int) * s + wb ∧ 0 ≤ st1.2.2.2 ∧
          st1.2.1 ≤ n ∧ (st1.2.1 = n → st1.2.2.2 = (wb : Int) - d) ∧
          ∀ (flag : Bool) (outLoc : Option Nat),
            changeBase2InlineAux buf src n s d flag w (wb : Int) outLoc =
              (changeBase2InlineAux buf st1.1 st1.2.1 s d flag st1.2.2.1 st1.2.2.2
                (some (outLoc.getD src + 1))).set (outLoc.getD src)
                (((changeBase2Inline.read buf s d n src w (wb : Int)).2.2.1 &&&
                  ((1 <<< d) - 1)) % 256)) := by
  constructor
  · obtain ⟨k, hk, hfuel⟩ := depth_spec buf s d hd.1 _ srcLen 0 0 0 (Nat.le_refl _)
    rw [Nat.add_zero] at hk
    have h1 : k ≤ srcLen * s / d := (Nat.le_div_iff_mul_le hd.1).2 hk
    refine ⟨k, h1, le_trans h1 (Nat.div_le_div_right (by omega)), fun fuel hf => ?_⟩
    exact hfuel fuel hf
  · intro src n w wb st1 h
    obtain ⟨h1, h2, h3⟩ := nextCall_measure buf s d src n w wb st1 h
    refine ⟨h1, h2, h3, fun he => ?_, fun flag outLoc => ?_⟩
    · rw [he] at h1
      omega
    · exact changeBase2InlineAux_nextCall buf src n s d hd.1 flag w wb outLoc st1 h

/-- C18, witness: three bytes to radix 32, where the bound is 24 / 5 = 4 nested calls. -/
theorem changeBase2Inline_terminates_witness :
    ∃ k, k ≤ 3 * 8 / 5 ∧ k ≤ (3 * 8 + 5 - 1) / 5 ∧
      ∀ fuel, k < fuel →
        changeBase2Inline.depth (Buffer.ofList [1, 2, 3]) 8 5 fuel (0, 3, 0, 0) = some k :=
  (changeBase2Inline_terminates (Buffer.ofList [1, 2, 3]) 3 8 5 (by decide)).1

/-! ## The work register -/

theorem or_shiftLeft_lt (w b wb s : Nat) (hw : w < 2 ^ wb) (hb : b < 2 ^ s) :
    w ||| (b <<< wb) < 2 ^ (wb + s) := by
  rw [or_shiftLeft_eq_add w b wb hw, Nat.pow_add]
  calc w + 2 ^ wb * b < 2 ^ wb + 2 ^ wb * b := by omega
    _ = 2 ^ wb * (b + 1) := by ring
    _ ≤ 2 ^ wb * 2 ^ s := Nat.mul_le_mul_left _ hb

theorem shiftRight_lt (w wb d : Nat) (hw : w < 2 ^ wb) (hd : d ≤ wb) :
    w >>> d < 2 ^ (wb - d) := by
  rw [Nat.shiftRight_eq_div_pow, Nat.div_lt_iff_lt_mul (Nat.two_pow_pos d), ← Nat.pow_add]
  have e : wb - d + d = wb := by omega
  rw [e]
  exact hw

theorem drain_inv (d : Nat) (hd : 0 < d) :
    ∀ (m w wb : Nat) (out : List Nat), wb ≤ m → w < 2 ^ wb →
      (∀ e ∈ changeBase2.drainStates d w wb, e.2 ≤ wb ∧ e.1 < 2 ^ e.2) ∧
        (changeBase2.drain d w wb out).1 < 2 ^ (changeBase2.drain d w wb out).2.1 ∧
        (changeBase2.drain d w wb out).2.1 < d := by
  intro m
  induction m with
  | zero =>
    intro w wb out h hw
    have h0 : wb = 0 := by omega
    subst h0
    rw [changeBase2.drainStates, dif_neg (by omega), changeBase2.drain, dif_neg (by omega)]
    refine ⟨?_, hw, hd⟩
    intro e he
    rw [List.mem_singleton] at he
    subst he
    exact ⟨Nat.le_refl _, hw⟩
  | succ m ih =>
    intro w wb out h hw
    by_cases hc : d ≤ wb
    · rw [changeBase2.drainStates, dif_pos ⟨hc, hd⟩, changeBase2.drain, dif_pos ⟨hc, hd⟩]
      obtain ⟨h1, h2, h3⟩ := ih (w >>> d) (wb - d)
        (out ++ [(w &&& ((1 <<< d) - 1)) % 256]) (by omega) (shiftRight_lt w wb d hw hc)
      refine ⟨?_, h2, h3⟩
      intro e he
      rw [List.mem_cons] at he
      rcases he with rfl | he
      · exact ⟨Nat.le_refl _, hw⟩
      · exact ⟨le_trans (h1 e he).1 (Nat.sub_le _ _), (h1 e he).2⟩
    · rw [changeBase2.drainStates, dif_neg (by omega), changeBase2.drain, dif_neg (by omega)]
      refine ⟨?_, hw, by simp only; omega⟩
      intro e he
      rw [List.mem_singleton] at he
      subst he
      exact ⟨Nat.le_refl _, hw⟩

theorem drain_unfold_pos (d w wb : Nat) (out : List Nat) (hc : d ≤ wb ∧ 0 < d) :
    changeBase2.drain d w wb out =
      changeBase2.drain d (w >>> d) (wb - d) (out ++ [(w &&& ((1 <<< d) - 1)) % 256]) := by
  rw [changeBase2.drain, dif_pos hc]

theorem drain_unfold_neg (d w wb : Nat) (out : List Nat) (hc : ¬ (d ≤ wb ∧ 0 < d)) :
    changeBase2.drain d w wb out = (w, wb, out) := by
  rw [changeBase2.drain, dif_neg hc]

/-- The register that the inner loop of `changeBase2` leaves does not depend on the bytes
stored so far. -/
theorem drain_out_irrelevant (d : Nat) :
    ∀ (m w wb : Nat) (out : List Nat), wb ≤ m →
      (changeBase2.drain d w wb out).1 = (changeBase2.drain d w wb []).1 ∧
        (changeBase2.drain d w wb out).2.1 = (changeBase2.drain d w wb []).2.1 := by
  intro m
  induction m with
  | zero =>
    intro w wb out h
    by_cases hc : d ≤ wb ∧ 0 < d
    · omega
    · rw [drain_unfold_neg d w wb out hc, drain_unfold_neg d w wb [] hc]
      exact ⟨rfl, rfl⟩
  | succ m ih =>
    intro w wb out h
    by_cases hc : d ≤ wb ∧ 0 < d
    · rw [drain_unfold_pos d w wb out hc, drain_unfold_pos d w wb [] hc]
      obtain ⟨h1, h2⟩ := ih (w >>> d) (wb - d) (out ++ [(w &&& ((1 <<< d) - 1)) % 256])
        (by omega)
      obtain ⟨h3, h4⟩ := ih (w >>> d) (wb - d) ([] ++ [(w &&& ((1 <<< d) - 1)) % 256])
        (by omega)
      exact ⟨h1.trans h3.symm, h2.trans h4.symm⟩
    · rw [drain_unfold_neg d w wb out hc, drain_unfold_neg d w wb [] hc]
      exact ⟨rfl, rfl⟩

/-- The register of `changeBase2` at every loop head: `workBits <= s + d - 1`,
`work < 2 ^ workBits`, and a byte is OR-ed in only at `workBits < d`. -/
theorem loop_inv (s d : Nat) (hd : 0 < d) :
    ∀ (src : List Nat) (w wb : Nat), (∀ b ∈ src, b < 2 ^ s) → wb < d → w < 2 ^ wb →
      ∀ e ∈ changeBase2.loopStates s d src w wb,
        e.2.2 ≤ s + d - 1 ∧ e.2.1 < 2 ^ e.2.2 ∧ (e.1 = true → e.2.2 < d) := by
  intro src
  induction src with
  | nil =>
    intro w wb _ hwb hw e he
    simp only [changeBase2.loopStates, List.mem_singleton] at he
    subst he
    exact ⟨by simp only; omega, hw, fun _ => hwb⟩
  | cons b src ih =>
    intro w wb hb hwb hw e he
    have hb0 : b < 2 ^ s := hb b (List.mem_cons_self _ _)
    have hb1 : ∀ c ∈ src, c < 2 ^ s := fun c hc => hb c (List.mem_cons_of_mem _ hc)
    have hw1 := or_shiftLeft_lt w b wb s hw hb0
    obtain ⟨h1, h2, h3⟩ := drain_inv d hd _ (w ||| (b <<< wb)) (wb + s) [] (Nat.le_refl _) hw1
    simp only [changeBase2.loopStates, List.mem_cons, List.mem_append, List.mem_map] at he
    rcases he with (rfl | ⟨st, hst, rfl⟩) | he
    · exact ⟨by simp only; omega, hw, fun _ => hwb⟩
    · obtain ⟨h4, h5⟩ := h1 st hst
      exact ⟨by simp only; omega, h5, fun hx => by simp at hx⟩
    · exact ih _ _ hb1 h3 h2 e he

/-- The listed loop heads of the inner loop of `changeBase2` end in the register the loop
returns. -/
theorem drainStates_getLast (d : Nat) :
    ∀ (m w wb : Nat) (out : List Nat), wb ≤ m →
      (changeBase2.drainStates d w wb).getLast? =
        some ((changeBase2.drain d w wb out).1, (changeBase2.drain d w wb out).2.1) := by
  intro m
  induction m with
  | zero =>
    intro w wb out h
    have hc : ¬ (d ≤ wb ∧ 0 < d) := by omega
    rw [changeBase2.drainStates, dif_neg hc, drain_unfold_neg d w wb out hc]
    rfl
  | succ m ih =>
    intro w wb out h
    by_cases hc : d ≤ wb ∧ 0 < d
    · rw [changeBase2.drainStates, dif_pos hc, drain_unfold_pos d w wb out hc,
        List.getLast?_cons, ih _ _ _ (by omega)]
      rfl
    · rw [changeBase2.drainStates, dif_neg hc, drain_unfold_neg d w wb out hc]
      rfl

/-- The listed loop heads of `changeBase2` end in the register its outer loop returns. -/
theorem loopStates_getLast (s d : Nat) :
    ∀ (src : List Nat) (w wb : Nat) (out : List Nat),
      (changeBase2.loopStates s d src w wb).getLast? =
        some (false, (changeBase2.loop s d src w wb out).1,
          (changeBase2.loop s d src w wb out).2.1) := by
  intro src
  induction src with
  | nil => intro w wb out; rfl
  | cons b src ih =>
    intro w wb out
    obtain ⟨h1, h2⟩ := drain_out_irrelevant d _ (w ||| (b <<< wb)) (wb + s) out (Nat.le_refl _)
    simp only [changeBase2.loopStates, changeBase2.loop]
    rw [List.getLast?_append,
      ih _ _ (changeBase2.drain d (w ||| (b <<< wb)) (wb + s) out).2.2, h1, h2]
    rfl

/-- The listed heads of the reading loop end in the register the loop returns. -/
theorem readStates_getLast (buf : Buffer) (s d : Nat) :
    ∀ (n src w : Nat) (wb : Int),
      (changeBase2Inline.readStates buf s d n src w wb).getLast? =
        some (false, (changeBase2Inline.read buf s d n src w wb).2.2.1,
          (changeBase2Inline.read buf s d n src w wb).2.2.2) := by
  intro n
  induction n with
  | zero => intro src w wb; rfl
  | succ n ih =>
    intro src w wb
    rw [changeBase2Inline.readStates, changeBase2Inline.read]
    split
    · rw [List.getLast?_cons, ih]
      rfl
    · rfl

/-- The register at every head of the reading loop of one call of the recursive converter,
and the register the loop leaves. -/
theorem readStates_inv (buf : Buffer) (s d N : Nat) (hbuf : ∀ i < N, buf i < 2 ^ s) :
    ∀ (n src w wb : Nat), src + n = N → wb ≤ s + d - 1 → w < 2 ^ wb →
      (∀ e ∈ changeBase2Inline.readStates buf s d n src w (wb : Int),
        0 ≤ e.2.2 ∧ e.2.2 ≤ ((s + d - 1 : Nat) : Int) ∧ e.2.1 < 2 ^ e.2.2.toNat ∧
          (e.1 = true → e.2.2 < d)) ∧
      ∃ wb1 : Nat, (changeBase2Inline.read buf s d n src w (wb : Int)).2.2.2 = (wb1 : Int) ∧
        wb1 ≤ s + d - 1 ∧ (changeBase2Inline.read buf s d n src w (wb : Int)).2.2.1 < 2 ^ wb1 ∧
        (changeBase2Inline.read buf s d n src w (wb : Int)).1 +
          (changeBase2Inline.read buf s d n src w (wb : Int)).2.1 = N := by
  intro n
  induction n with
  | zero =>
    intro src w wb hN hwb hw
    simp only [changeBase2Inline.readStates, changeBase2Inline.read, List.mem_singleton]
    refine ⟨?_, wb, rfl, hwb, hw, hN⟩
    intro e he
    subst he
    exact ⟨by simp, by simp only; omega, by simpa using hw, fun hx => by simp at hx⟩
  | succ n ih =>
    intro src w wb hN hwb hw
    by_cases hc : wb < d
    · have hc1 : (wb : Int) < (d : Int) := by omega
      have hb : buf src < 2 ^ s := hbuf src (by omega)
      obtain ⟨h1, h2⟩ := ih (src + 1) (w ||| (buf src <<< wb)) (wb + s) (by omega) (by omega)
        (or_shiftLeft_lt w (buf src) wb s hw hb)
      have e1 : changeBase2Inline.read buf s d (n + 1) src w (wb : Int) =
          changeBase2Inline.read buf s d n (src + 1) (w ||| (buf src <<< wb))
            ((wb + s : Nat) : Int) := by
        rw [changeBase2Inline.read, if_pos hc1]
        simp
      have e2 : changeBase2Inline.readStates buf s d (n + 1) src w (wb : Int) =
          (true, w, (wb : Int)) ::
            changeBase2Inline.readStates buf s d n (src + 1) (w ||| (buf src <<< wb))
              ((wb + s : Nat) : Int) := by
        rw [changeBase2Inline.readStates, if_pos hc1]
        simp
      rw [e1, e2]
      refine ⟨?_, h2⟩
      intro e he
      rw [List.mem_cons] at he
      rcases he with rfl | he
      · exact ⟨by simp, by simp only; omega, by simpa using hw, fun _ => hc1⟩
      · exact h1 e he
    · have hc1 : ¬ (wb : Int) < (d : Int) := by omega
      have e1 : changeBase2Inline.read buf s d (n + 1) src w (wb : Int) =
          (src, n + 1, w, (wb : Int)) := by
        rw [changeBase2Inline.read, if_neg hc1]
      have e2 : changeBase2Inline.readStates buf s d (n + 1) src w (wb : Int) =
          [(false, w, (wb : Int))] := by
        rw [changeBase2Inline.readStates, if_neg hc1]
      rw [e1, e2]
      refine ⟨?_, wb, rfl, hwb, hw, hN⟩
      intro e he
      rw [List.mem_singleton] at he
      subst he
      exact ⟨by simp, by simp only; omega, by simpa using hw, fun hx => by simp at hx⟩

/-- The arguments of every call of the recursive converter: `workBits` in `0 .. s + d - 1`,
`work < 2 ^ workBits`, and `src + srcLen` at the end of the input. -/
theorem calls_inv (buf : Buffer) (s d N : Nat) (hbuf : ∀ i < N, buf i < 2 ^ s) :
    ∀ (fuel src n w wb : Nat), src + n = N → wb ≤ s + d - 1 → w < 2 ^ wb →
      ∀ st ∈ changeBase2Inline.calls buf s d fuel (src, n, w, (wb : Int)),
        ∃ wb1 : Nat, st.2.2.2 = (wb1 : Int) ∧ wb1 ≤ s + d - 1 ∧ st.2.2.1 < 2 ^ wb1 ∧
          st.1 + st.2.1 = N := by
  intro fuel
  induction fuel with
  | zero =>
    intro src n w wb _ _ _ st hst
    simp [changeBase2Inline.calls] at hst
  | succ fuel ih =>
    intro src n w wb hN hwb hw st hst
    rw [changeBase2Inline.calls, List.mem_cons] at hst
    rcases hst with rfl | hst
    · exact ⟨wb, rfl, hwb, hw, hN⟩
    · obtain ⟨_, wb1, h1, h2, h3, h4⟩ := readStates_inv buf s d N hbuf n src w wb hN hwb hw
      obtain ⟨wb2, h5, _, h6, _, _⟩ := read_spec buf s d n src w wb
      have e12 : wb1 = wb2 := by
        have := h1.symm.trans h5
        exact_mod_cast this
      subst e12
      by_cases hr : (changeBase2Inline.read buf s d n src w (wb : Int)).2.1 ≠ 0
      · have hle := h6 hr
        have e : ((wb1 : Int) - (d : Int)) = ((wb1 - d : Nat) : Int) := by omega
        have hnc : changeBase2Inline.nextCall buf s d (src, n, w, (wb : Int)) =
            some ((changeBase2Inline.read buf s d n src w (wb : Int)).1,
              (changeBase2Inline.read buf s d n src w (wb : Int)).2.1,
              (changeBase2Inline.read buf s d n src w (wb : Int)).2.2.1 >>> d,
              ((wb1 - d : Nat) : Int)) := by
          rw [← e, ← h1]
          exact (nextCall_eq buf s d (src, n, w, (wb : Int))).trans (if_pos hr)
        rw [hnc] at hst
        exact ih _ _ _ _ h4 (by omega) (shiftRight_lt _ wb1 d h3 hle) st hst
      · have hnc : changeBase2Inline.nextCall buf s d (src, n, w, (wb : Int)) = none :=
          (nextCall_eq buf s d (src, n, w, (wb : Int))).trans (if_neg hr)
        rw [hnc] at hst
        simp at hst

/-- C19: for `src2Pow`, `dst2Pow` in 1..8 and input bytes below `2 ^ src2Pow`.  At every loop
head of `changeBase2`, and at every head of the reading loop in every call of the recursive
`changeBase2Inline`, `workBits` is in `0 .. src2Pow + dst2Pow - 1` (at most 15) and
`work < 2 ^ workBits` (so `work < 2 ^ 32`); a byte is OR-ed in only at `workBits < dst2Pow`, where
the OR is an addition of disjoint bits.  The symbols `changeBase2` stores, and those
`changeBase2Inline` stores with the flag set, are the successive groups of `dst2Pow` bits of
the input bit stream, least significant first. -/
theorem work_register_invariant (s d : Nat) (hs : 1 ≤ s ∧ s ≤ 8) (hd : 1 ≤ d ∧ d ≤ 8) :
    (∀ src : List Nat, (∀ b ∈ src, b < 2 ^ s) →
      (∀ e ∈ changeBase2.loopStates s d src 0 0,
        e.2.2 ≤ s + d - 1 ∧ e.2.2 ≤ 15 ∧ e.2.1 < 2 ^ e.2.2 ∧ e.2.1 < 2 ^ 32 ∧
          (e.1 = true → e.2.2 < d ∧
            ∀ b, e.2.1 ||| (b <<< e.2.2) = e.2.1 + 2 ^ e.2.2 * b)) ∧
      ∀ dstLen, (src.length * s + d - 1) / d ≤ dstLen →
        changeBase2 src s dstLen d =
          (List.range ((src.length * s + d - 1) / d)).map (bitsAt d (bitValue s src))) ∧
    (∀ (buf : Buffer) (n : Nat), (∀ i < n, buf i < 2 ^ s) →
      (∀ fuel, ∀ st ∈ changeBase2Inline.calls buf s d fuel (0, n, 0, 0),
        ∀ e ∈ changeBase2Inline.readStates buf s d st.2.1 st.1 st.2.2.1 st.2.2.2,
          0 ≤ e.2.2 ∧ e.2.2 ≤ ((s + d - 1 : Nat) : Int) ∧ e.2.2 ≤ 15 ∧
            e.2.1 < 2 ^ e.2.2.toNat ∧ e.2.1 < 2 ^ 32 ∧
            (e.1 = true → e.2.2 < d ∧
              ∀ b, e.2.1 ||| (b <<< e.2.2.toNat) = e.2.1 + 2 ^ e.2.2.toNat * b)) ∧
      (1 ≤ n →
        changeBase2Inline buf n s d true =
          buf.write 0
            ((List.range ((n * s + d - 1) / d)).map
              (bitsAt d (bitValue s (buf.slice 0 n)))))) := by
  have hd0 : 0 < d := hd.1
  constructor
  · intro src hsrc
    constructor
    · intro e he
      obtain ⟨h1, h2, h3⟩ := loop_inv s d hd0 src 0 0 hsrc hd0 (by norm_num) e he
      have h15 : e.2.2 ≤ 15 := by omega
      refine ⟨h1, h15, h2, lt_of_lt_of_le h2 (Nat.pow_le_pow_right (by decide) (by omega)),
        fun ht => ⟨h3 ht, fun b => or_shiftLeft_eq_add _ b _ h2⟩⟩
    · intro dstLen hlen
      have hl := bitGroups_length s d hd0 src 0 0
      rw [Nat.zero_add, Nat.mul_comm] at hl
      rw [changeBase2_eq_bitGroups s d dstLen hd0 src (by rw [hl]; exact hlen),
        bitGroups_eq_bitsAt s d hd0 hd.2 src 0 0 hsrc (by norm_num)]
      simp only [Nat.zero_add, Nat.pow_zero, Nat.one_mul, Nat.mul_comm s]
  · intro buf n hbuf
    constructor
    · intro fuel st hst e he
      obtain ⟨wb1, h1, h2, h3, h4⟩ := calls_inv buf s d n hbuf fuel 0 n 0 0 (by omega)
        (by omega) (by norm_num) st hst
      rw [h1] at he
      obtain ⟨h5, _⟩ := readStates_inv buf s d n hbuf st.2.1 st.1 st.2.2.1 wb1 h4 h2 h3
      obtain ⟨h6, h7, h8, h9⟩ := h5 e he
      have h15 : e.2.2 ≤ 15 := by omega
      have h16 : e.2.2.toNat ≤ 15 := by omega
      refine ⟨h6, h7, h15, h8,
        lt_of_lt_of_le h8 (Nat.pow_le_pow_right (by decide) (by omega)),
        fun ht => ⟨h9 ht, fun b => or_shiftLeft_eq_add _ b _ h8⟩⟩
    · intro hn
      have hsl : ∀ b ∈ buf.slice 0 n, b < 2 ^ s := by
        intro b hb
        simp only [Buffer.slice, List.mem_map, List.mem_range, Nat.zero_add] at hb
        obtain ⟨i, hi, rfl⟩ := hb
        exact hbuf i hi
      have e2 := inlineAux_true buf s d hs.1 hd0 _ n 0 0 0 none (Nat.le_refl _) (Or.inl hn)
      simp only [Option.getD_none, Nat.cast_zero] at e2
      unfold changeBase2Inline
      rw [e2, bitGroups_eq_bitsAt s d hd0 hd.2 _ 0 0 hsl (by norm_num)]
      simp only [Nat.zero_add, Nat.pow_zero, Nat.one_mul, Buffer.length_slice, Nat.mul_comm s]

/-- C19, witness: radix 256 to radix 32 on the bytes 255, 1, 128. -/
theorem work_register_invariant_witness :
    changeBase2 [255, 1, 128] 8 5 5 =
      (List.range ((3 * 8 + 5 - 1) / 5)).map (bitsAt 5 (bitValue 8 [255, 1, 128])) :=
  ((work_register_invariant 8 5 (by decide) (by decide)).1 [255, 1, 128] (by decide)).2 5
    (by decide)

end Encfs
